import Mathlib

/-! # urlscan: the option picker of `main.go`

A shallow embedding of the selection widget of `a-h/urlscan` (`src/main.go`):

* the keystroke debouncer (`ChoiceOptionIndex`, `choiceIndex`, the goroutine of `NewChoice`),
* the text flow engine (`flow`, `flowProcessor`) and the glyph renderer (`Text.Draw`),
* the selection model (`Options.Up`, `Options.Down`) and the `Focus` event loop,
* the tail of `main` that hands the result of `Focus` to the browser.

Go strings are byte sequences, so a string is a list of byte values; a rune (Go's
`rune`, an `int32`) is an `Int`.  The pieces of the Go standard library the code
calls (`utf8`, `unicode.IsSpace`, `strings.TrimSpace`, `strings.HasPrefix`,
`strconv.FormatInt`) are written out after their documented behaviour.
-/

set_option linter.dupNamespace false
set_option linter.unusedVariables false

namespace Urlscan

/-- A Go string: a sequence of bytes (each value below 256). -/
abbrev GoString := List Nat

/-! ## UTF-8 (`unicode/utf8`) -/

/-- The rune `utf8.RuneError`, U+FFFD. -/
def RuneError : Int := 0xFFFD

/-- The function `utf8.AppendRune` on an empty buffer, which is also the conversion
`string(r)` and what `strings.Builder.WriteRune` appends: the UTF-8 encoding of
`r`, where a rune that is negative, a surrogate or above U+10FFFF is encoded as
U+FFFD. -/
def encodeRune (r : Int) : GoString :=
  let n := r.toNat
  if r < 0 then [0xEF, 0xBF, 0xBD]
  else if n < 0x80 then [n]
  else if n < 0x800 then [0xC0 + n / 64, 0x80 + n % 64]
  else if 0xD800 ≤ n ∧ n ≤ 0xDFFF then [0xEF, 0xBF, 0xBD]
  else if n < 0x10000 then [0xE0 + n / 4096, 0x80 + n / 64 % 64, 0x80 + n % 64]
  else if n ≤ 0x10FFFF then
    [0xF0 + n / 262144, 0x80 + n / 4096 % 64, 0x80 + n / 64 % 64, 0x80 + n % 64]
  else [0xEF, 0xBF, 0xBD]

/-- The continuation-byte test of `unicode/utf8` (`locb <= b <= hicb`). -/
def isCont (b : Nat) : Bool := decide (0x80 ≤ b ∧ b ≤ 0xBF)

/-- The function `utf8.DecodeRuneInString`: the first rune of `s` and its width in
bytes; an invalid or short sequence gives `(RuneError, 1)`, the empty string
`(RuneError, 0)`.  The ranges of the second byte are those of the table
`acceptRanges`. -/
def DecodeRuneInString (s : GoString) : Int × Nat :=
  match s with
  | [] => (RuneError, 0)
  | s0 :: t =>
    if s0 < 0x80 then ((s0 : Int), 1)
    else if s0 < 0xC2 then (RuneError, 1)
    else if s0 < 0xE0 then
      match t with
      | s1 :: _ =>
        if isCont s1 then ((((s0 % 32) * 64 + s1 % 64 : Nat) : Int), 2) else (RuneError, 1)
      | _ => (RuneError, 1)
    else if s0 < 0xF0 then
      match t with
      | s1 :: s2 :: _ =>
        let lo := if s0 = 0xE0 then 0xA0 else 0x80
        let hi := if s0 = 0xED then 0x9F else 0xBF
        if lo ≤ s1 ∧ s1 ≤ hi ∧ isCont s2 = true then
          ((((s0 % 16) * 4096 + (s1 % 64) * 64 + s2 % 64 : Nat) : Int), 3)
        else (RuneError, 1)
      | _ => (RuneError, 1)
    else if s0 < 0xF5 then
      match t with
      | s1 :: s2 :: s3 :: _ =>
        let lo := if s0 = 0xF0 then 0x90 else 0x80
        let hi := if s0 = 0xF4 then 0x8F else 0xBF
        if lo ≤ s1 ∧ s1 ≤ hi ∧ isCont s2 = true ∧ isCont s3 = true then
          ((((s0 % 8) * 262144 + (s1 % 64) * 4096 + (s2 % 64) * 64 + s3 % 64 : Nat) : Int), 4)
        else (RuneError, 1)
      | _ => (RuneError, 1)
    else (RuneError, 1)

/-- The loop `for _, r := range s` over a string: the runes it yields, in order.
Each iteration decodes one rune and advances by its width (one byte on an invalid
sequence).  The fuel is the number of bytes left, which is enough because every
iteration consumes at least one byte. -/
def rangeRunes : Nat → GoString → List Int
  | 0, _ => []
  | _ + 1, [] => []
  | fuel + 1, b :: t =>
    let d := DecodeRuneInString (b :: t)
    d.1 :: rangeRunes fuel ((b :: t).drop d.2)

/-- The runes of a string, as `range` yields them. -/
def runes (s : GoString) : List Int := rangeRunes s.length s

/-! ## `strings.HasPrefix`, `strconv.FormatInt` -/

/-- The function `strings.HasPrefix`:
`len(s) >= len(prefix) && s[:len(prefix)] == prefix`. -/
def HasPrefix (s pre : GoString) : Bool :=
  decide (pre.length ≤ s.length) && decide (s.take pre.length = pre)

/-- The decimal digits of `n`, most significant first, as ASCII bytes; the first
argument is fuel. -/
def formatDecimal : Nat → Nat → GoString
  | 0, n => [48 + n % 10]
  | fuel + 1, n =>
    if n < 10 then [48 + n] else formatDecimal fuel (n / 10) ++ [48 + n % 10]

/-- The call `strconv.FormatInt(int64(i), 10)` for a slice index `i` (never
negative). -/
def FormatInt (i : Nat) : GoString := formatDecimal i i

/-! ## The debouncer: `ChoiceOptionIndex`, `choiceIndex`, `NewChoice` -/

/-- The struct `Choice`. -/
structure Choice where
  Index : Int
  Value : GoString
  deriving DecidableEq, Repr

/-- The function `ChoiceOptionIndex`: one key per option, the decimal form of its
index. -/
def ChoiceOptionIndex (options : List GoString) : List GoString :=
  (List.range options.length).map FormatInt

/-- The loop of `choiceIndex` from position `i` on, with the current values of
`(index, matchesPrefix)`. -/
def choiceIndexFrom (s : GoString) : List GoString → Nat → Int × Bool → Int × Bool
  | [], _, acc => acc
  | c :: cs, i, acc =>
    if c = s then choiceIndexFrom s cs (i + 1) ((i : Int), acc.2)
    else if HasPrefix c s = true then choiceIndexFrom s cs (i + 1) (acc.1, true)
    else choiceIndexFrom s cs (i + 1) acc

/-- The function `choiceIndex`: `index` starts at -1, `matchesPrefix` at false. -/
def choiceIndex (options : List GoString) (s : GoString) : Int × Bool :=
  choiceIndexFrom s options 0 (-1, false)

/-- The state the goroutine of `NewChoice` carries from one iteration of its loop
to the next: `buffer` and `index`.  (The variable `matchesPrefix` is assigned from
`choiceIndex` in the rune case before it is read and is read nowhere else, so it
carries nothing between iterations.) -/
structure Debouncer where
  buffer : GoString
  index : Int
  deriving DecidableEq, Repr

/-- The events the `select` of `NewChoice` reacts to while it runs: a rune received
on `runes`, and the firing of `time.After`. -/
inductive DEvent where
  | rune (r : Int)
  | tick
  deriving DecidableEq, Repr

/-- The state before the first iteration: `buffer == ""`, `index == -1`. -/
def Debouncer.init : Debouncer := ⟨[], -1⟩

/-- The expression `options[index]`; the index is in range wherever the loop
evaluates it (`choiceIndex_fst_cases`). -/
def optionAt (options : List GoString) (index : Int) : GoString :=
  options.getD index.toNat []

/-- One iteration of the loop of `NewChoice`: the next state and the choices sent
on `selection` during the iteration. -/
def Debouncer.step (options : List GoString) (st : Debouncer) :
    DEvent → Debouncer × List Choice
  | .tick =>
    if st.index > -1 then (⟨[], -1⟩, [⟨st.index, optionAt options st.index⟩])
    else (⟨[], st.index⟩, [])
  | .rune r =>
    let buffer := st.buffer ++ encodeRune r
    let (index, matchesPrefix) := choiceIndex options buffer
    if index < 0 then (⟨[], index⟩, [])
    else if matchesPrefix then (⟨buffer, index⟩, [])
    else (⟨[], -1⟩, [⟨index, optionAt options index⟩])

/-- The loop of `NewChoice` over a sequence of events: the final state and all the
choices sent, in order. -/
def Debouncer.run (options : List GoString) : Debouncer → List DEvent → Debouncer × List Choice
  | st, [] => (st, [])
  | st, ev :: evs =>
    let r1 := Debouncer.step options st ev
    let r2 := Debouncer.run options r1.1 evs
    (r2.1, r1.2 ++ r2.2)

/-! ## `unicode.IsSpace`, `strings.TrimSpace` -/

/-- The function `unicode.IsSpace`: in Latin-1 the runes `\t \n \v \f \r`, space,
U+0085 and U+00A0; above it the table `White_Space`. -/
def IsSpace (r : Int) : Bool :=
  decide ((0x09 ≤ r ∧ r ≤ 0x0D) ∨ r = 0x20 ∨ r = 0x85 ∨ r = 0xA0 ∨ r = 0x1680 ∨
    (0x2000 ≤ r ∧ r ≤ 0x200A) ∨ r = 0x2028 ∨ r = 0x2029 ∨ r = 0x202F ∨ r = 0x205F ∨
    r = 0x3000)

/-- The test `utf8.RuneStart`: the byte is not a continuation byte. -/
def RuneStart (b : Nat) : Bool := decide (b / 64 % 4 ≠ 2)

/-- The backward search of `utf8.DecodeLastRuneInString`: `rev` is the part of the
string before the last byte, reversed; `k` counts the bytes stepped back so far.
The result is the number of bytes from the found start to the end, at most
`UTFMax = 4`. -/
def lastRuneStart : List Nat → Nat → Nat
  | [], k => k
  | b :: rest, k =>
    if k ≥ 4 then k
    else if RuneStart b then k + 1
    else lastRuneStart rest (k + 1)

/-- The function `utf8.DecodeLastRuneInString`: the last rune of `s` and its width;
an invalid sequence gives `(RuneError, 1)`, the empty string `(RuneError, 0)`. -/
def DecodeLastRuneInString (s : GoString) : Int × Nat :=
  match s.reverse with
  | [] => (RuneError, 0)
  | b :: rest =>
    if b < 0x80 then ((b : Int), 1)
    else
      let n := min (lastRuneStart rest 1) (min 4 s.length)
      let d := DecodeRuneInString (s.drop (s.length - n))
      if d.2 = n then d else (RuneError, 1)

/-- The function `strings.TrimLeftFunc(s, unicode.IsSpace)`: drop leading runes
while they are white space.  The first argument is fuel (the length is enough). -/
def trimLeft : Nat → GoString → GoString
  | 0, s => s
  | _ + 1, [] => []
  | fuel + 1, b :: t =>
    let d := DecodeRuneInString (b :: t)
    if IsSpace d.1 then trimLeft fuel ((b :: t).drop d.2) else b :: t

/-- The function `strings.TrimRightFunc(s, unicode.IsSpace)`: drop trailing runes
while they are white space.  The first argument is fuel (the length is enough). -/
def trimRight : Nat → GoString → GoString
  | 0, s => s
  | fuel + 1, s =>
    if s = [] then s
    else
      let d := DecodeLastRuneInString s
      if IsSpace d.1 then trimRight fuel (s.take (s.length - d.2)) else s

/-- The function `strings.TrimSpace`: `s` without its leading and trailing white
space, as `unicode.IsSpace` defines it (the ASCII fast path of the library gives
the same slice as `TrimFunc(s, unicode.IsSpace)`). -/
def TrimSpace (s : GoString) : GoString :=
  let l := trimLeft s.length s
  trimRight l.length l

/-! ## The text flow engine: `flow`, `flowProcessor` -/

/-- The variables of `flowProcessor` at the head of its loop, and the lines passed
to `out` so far.  `col` and `lastSpace` are Go `int`s that never go below 0. -/
structure FlowState where
  buf : GoString
  col : Nat
  lastSpace : Nat
  out : List GoString
  deriving DecidableEq, Repr

/-- The state of `flowProcessor` before the first rune. -/
def FlowState.init : FlowState := ⟨[], 0, 0, []⟩

/-- The body of the loop of `flowProcessor` for one rune `r`.  The slices
`buf.String()[:end]` and `buf.String()[end:]` are byte slices; `end` never exceeds
the length of the buffer (`flowStep_inv`), so they do not go out of range. -/
def flowStep (maxWidth : Int) (st : FlowState) (r : Int) : FlowState :=
  if r = 13 then st
  else if r = 10 then ⟨[], 0, 0, st.out ++ [st.buf]⟩
  else
    let buf := st.buf ++ encodeRune r
    let lastSpace := if IsSpace r then st.col else st.lastSpace
    if (st.col : Int) = maxWidth then
      let e := if lastSpace = 0 then st.col else lastSpace
      let line := TrimSpace (buf.take e)
      let pre := TrimSpace (buf.drop e)
      ⟨pre, pre.length, 0, st.out ++ [line]⟩
    else ⟨buf, st.col + 1, lastSpace, st.out⟩

/-- The function `flowProcessor`, with the lines passed to `out` collected in
order: the loop over the runes of `s`, then the final `out(buf.String())`. -/
def flowProcessor (s : GoString) (maxWidth : Int) : List GoString :=
  let st := (runes s).foldl (flowStep maxWidth) FlowState.init
  st.out ++ [st.buf]

/-- The function `flow`: the lines `flowProcessor` produces. -/
def flow (s : GoString) (maxWidth : Int) : List GoString := flowProcessor s maxWidth

/-- The call `strings.Join(lines, "\n")`. -/
def joinLines : List GoString → GoString
  | [] => []
  | [l] => l
  | l :: ls => l ++ 10 :: joinLines ls

/-- Modelled from the spec: the width function `runewidth.RuneWidth` of the
renderer (the library go-runewidth is not under src/): 0 for a character that
takes no column (here the control characters and the combining diacritical marks
U+0300..U+036F), 2 for a wide East-Asian glyph (here the CJK ideographs
U+4E00..U+9FFF), 1 for every other character. -/
def RuneWidth (r : Int) : Nat :=
  if r < 0x20 ∨ (0x7F ≤ r ∧ r ≤ 0x9F) ∨ (0x300 ≤ r ∧ r ≤ 0x36F) ∨ 0x10FFFF < r then 0
  else if 0x4E00 ≤ r ∧ r ≤ 0x9FFF then 2
  else 1

/-- The display columns of a line: the width function `rw` summed over the runes
of the line, which are the characters `Text.Draw` ranges over. -/
def lineWidth (rw : Int → Nat) (line : GoString) : Nat :=
  ((runes line).map rw).sum

/-- A line that is one single word: none of its characters is white space. -/
def isSingleWord (line : GoString) : Bool :=
  (runes line).all (fun r => !IsSpace r)

/-- An ASCII string: every byte is below 128, so every character is one byte. -/
def isASCII (s : GoString) : Prop := ∀ b ∈ s, b < 128

/-- What holds at the head of the loop of `flowProcessor` on ASCII input at a width
of at least 1: `col` is the length of the buffer and is at most the width, and
every line passed to `out` is ASCII and at most `w` bytes long. -/
def FlowInv (w : Int) (st : FlowState) : Prop :=
  st.col = st.buf.length ∧ st.lastSpace ≤ st.col ∧ (st.col : Int) ≤ w ∧ isASCII st.buf ∧
    ∀ l ∈ st.out, (l.length : Int) ≤ w ∧ isASCII l

/-- No byte of the buffer or of a line passed to `out` is a line feed or a carriage
return. -/
def FlowClean (st : FlowState) : Prop :=
  (∀ b ∈ st.buf, b ≠ 10 ∧ b ≠ 13) ∧ ∀ l ∈ st.out, ∀ b ∈ l, b ≠ 10 ∧ b ≠ 13

/-- The test `utf8.ValidRune`: a Unicode scalar value, that is a code point up to
U+10FFFF that is not a surrogate. -/
def isScalar (r : Int) : Prop := 0 ≤ r ∧ r ≤ 0x10FFFF ∧ ¬ (0xD800 ≤ r ∧ r ≤ 0xDFFF)

/-- The conversion `string(rs)` of a rune slice: the UTF-8 encodings of the runes,
one after the other.  The valid UTF-8 strings are the values of this function on
sequences of Unicode scalar values. -/
def encodeRunes : List Int → GoString
  | [] => []
  | r :: rs => encodeRune r ++ encodeRunes rs

/-- The pieces of a list around the separator `sep`: the piece before the first
separator, and the pieces after it. -/
def splitSep {α : Type} [DecidableEq α] (sep : α) : List α → List α × List (List α)
  | [] => ([], [])
  | x :: xs =>
    if x = sep then ([], (splitSep sep xs).1 :: (splitSep sep xs).2)
    else (x :: (splitSep sep xs).1, (splitSep sep xs).2)

/-- The call `strings.Split(s, "\n")`. -/
def SplitLines (s : GoString) : List GoString := (splitSep 10 s).1 :: (splitSep 10 s).2

/-- The string `s` with every carriage return deleted
(`strings.ReplaceAll(s, "\r", "")`). -/
def removeCR (s : GoString) : GoString := s.filter (fun b => decide (b ≠ 13))

/-! ## The glyph renderer: `Text.Draw` -/

/-- One call `Screen.SetContent(x, y, mainc, combc, style)`, the style aside. -/
structure Cell where
  x : Int
  y : Int
  mainc : Int
  combc : List Int
  deriving DecidableEq, Repr

/-- The struct `Text`, without the screen handle and the style. -/
structure Text where
  X : Int
  Y : Int
  MaxWidth : Int
  Text : GoString
  deriving DecidableEq, Repr

/-- The variables the loops of `Text.Draw` update, and the calls of `SetContent`
made so far, in order. -/
structure DrawState where
  cells : List Cell
  x : Int
  y : Int
  requiredMaxWidth : Int
  deriving DecidableEq, Repr

/-- The body of the inner loop of `Text.Draw` for the character `c`, with the width
function `rw` for `runewidth.RuneWidth`. -/
def drawRune (rw : Int → Nat) (st : DrawState) (c : Int) : DrawState :=
  let w : Int := (rw c : Int)
  let comb : List Int := if w = 0 then [c] else []
  let c2 : Int := if w = 0 then 32 else c
  let w2 : Int := if w = 0 then 1 else w
  let x2 : Int := st.x + w2
  { cells := st.cells ++ [⟨st.x, st.y, c2, comb⟩]
    x := x2
    y := st.y
    requiredMaxWidth := if x2 > st.requiredMaxWidth then x2 else st.requiredMaxWidth }

/-- The body of the outer loop of `Text.Draw` for the line of index `lineIndex`:
`y = t.Y + lineIndex`, `x = t.X`, then the inner loop over the runes of the line. -/
def drawLine (rw : Int → Nat) (t : Urlscan.Text) (st : DrawState) (lineIndex : Nat)
    (line : GoString) : DrawState :=
  (runes line).foldl (drawRune rw) { st with y := t.Y + (lineIndex : Int), x := t.X }

/-- The outer loop of `Text.Draw` from the line of index `lineIndex` on. -/
def drawLines (rw : Int → Nat) (t : Urlscan.Text) : DrawState → Nat → List GoString → DrawState
  | st, _, [] => st
  | st, lineIndex, l :: ls => drawLines rw t (drawLine rw t st lineIndex l) (lineIndex + 1) ls

/-- The method `Text.Draw` on a screen `maxX` columns wide: the calls of
`SetContent` in order, and the two results `(requiredMaxWidth, y)`. -/
def Text.Draw (rw : Int → Nat) (t : Urlscan.Text) (maxX : Int) : List Cell × Int × Int :=
  let maxWidth0 : Int := maxX - t.X
  let maxWidth : Int :=
    if t.MaxWidth > 0 ∧ maxWidth0 > t.MaxWidth then t.MaxWidth else maxWidth0
  let st := drawLines rw t ⟨[], 0, 0, 0⟩ 0 (flow t.Text maxWidth)
  (st.cells, st.requiredMaxWidth, st.y)

/-- The placement the code makes, as a function of the line: every character gets
a cell of its own at the current `x`; a character of width 0 is drawn as a space
that carries it as combining mark and advances `x` by 1, every other character
advances `x` by its width. -/
def placeRunes (rw : Int → Nat) (y : Int) : Int → List Int → List Cell
  | _, [] => []
  | x, c :: cs =>
    if rw c = 0 then ⟨x, y, 32, [c]⟩ :: placeRunes rw y (x + 1) cs
    else ⟨x, y, c, []⟩ :: placeRunes rw y (x + (rw c : Int)) cs

/-- The column after the last character of a line drawn from column `x`. -/
def advanceRunes (rw : Int → Nat) : Int → List Int → Int
  | x, [] => x
  | x, c :: cs => advanceRunes rw (if rw c = 0 then x + 1 else x + (rw c : Int)) cs

/-- The placement in the words of the specification, with the cells placed so far:
a character of width 0 that follows a cell on the line is added to the combining
marks of that cell and `x` stays; with no cell before it, it is drawn on a space
and `x` advances by 1; every other character is placed at `x` and advances `x` by
its width. -/
def placeAttached (rw : Int → Nat) (y : Int) : List Cell → Int → List Int → List Cell × Int
  | cells, x, [] => (cells, x)
  | cells, x, c :: cs =>
    if rw c = 0 then
      match cells.getLast? with
      | some last =>
        placeAttached rw y (cells.dropLast ++ [{ last with combc := last.combc ++ [c] }]) x cs
      | none => placeAttached rw y [⟨x, y, 32, [c]⟩] (x + 1) cs
    else placeAttached rw y (cells ++ [⟨x, y, c, []⟩]) (x + (rw c : Int)) cs

/-! ## The selection model: `Options`, `NewOptions`, `Up`, `Down` -/

/-- The struct `Options`, without the screen handle and the style. -/
structure Options where
  X : Int
  Y : Int
  Options : List GoString
  ActiveIndex : Int
  CancelIndex : Int
  deriving DecidableEq, Repr

/-- The string literal `"Cancel"`. -/
def strCancel : GoString := [67, 97, 110, 99, 101, 108]

/-- The string literal `"Exit"`. -/
def strExit : GoString := [69, 120, 105, 116]

/-- The string literal `"quit"`. -/
def strQuit : GoString := [113, 117, 105, 116]

/-- The scan of `NewOptions` from position `i` on: the first index whose option is
`"Cancel"` or `"Exit"`, else -1. -/
def cancelIndexFrom : List GoString → Nat → Int
  | [], _ => -1
  | o :: os, i => if o = strCancel ∨ o = strExit then (i : Int) else cancelIndexFrom os (i + 1)

/-- The function `NewOptions`. -/
def NewOptions (opts : List GoString) : Options :=
  { X := 0, Y := 0, Options := opts, ActiveIndex := 0, CancelIndex := cancelIndexFrom opts 0 }

/-- The method `Options.Up`. -/
def Options.Up (o : Urlscan.Options) : Urlscan.Options :=
  if o.ActiveIndex = 0 then { o with ActiveIndex := (o.Options.length : Int) - 1 }
  else { o with ActiveIndex := o.ActiveIndex - 1 }

/-- The method `Options.Down`. -/
def Options.Down (o : Urlscan.Options) : Urlscan.Options :=
  if o.ActiveIndex = (o.Options.length : Int) - 1 then { o with ActiveIndex := 0 }
  else { o with ActiveIndex := o.ActiveIndex + 1 }

/-! ## The event loop `Options.Focus` and the tail of `main` -/

/-- The keys `Focus` distinguishes (`tcell.Key`); `KeyOther` is any other key. -/
inductive Key where
  | KeyBacktab | KeyTab | KeyUp | KeyDown | KeyRune | KeyEscape | KeyEnter | KeyOther
  deriving DecidableEq, Repr

/-- What `Screen.PollEvent` returns: a resize event, a key event with its key and
rune, or anything else (another event type, or the nil event posted after a
choice). -/
inductive Event where
  | EventResize
  | EventKey (key : Key) (r : Int)
  | EventOther
  deriving DecidableEq, Repr

/-- The result of one iteration of the loop of `Focus`: the loop goes on with the
options `o` after sending `sent` on the channel `runes`, or `Focus` returns a
string, or the index expression `o.Options[o.ActiveIndex]` is out of range. -/
inductive Poll where
  | running (o : Urlscan.Options) (sent : List Int)
  | returned (s : GoString)
  | panicked
  deriving DecidableEq, Repr

/-- One iteration of the loop of `Focus` on the event `ev` (drawing aside). -/
def Options.poll (o : Urlscan.Options) : Event → Poll
  | .EventResize => .running o []
  | .EventKey .KeyBacktab _ => .running o.Up []
  | .EventKey .KeyTab _ => .running o.Down []
  | .EventKey .KeyUp _ => .running o.Up []
  | .EventKey .KeyDown _ => .running o.Down []
  | .EventKey .KeyRune r => if r = 113 then .returned strQuit else .running o [r]
  | .EventKey .KeyEscape _ => .returned strQuit
  | .EventKey .KeyEnter _ =>
    if 0 ≤ o.ActiveIndex ∧ o.ActiveIndex < (o.Options.length : Int) then
      .returned (o.Options.getD o.ActiveIndex.toNat [])
    else .panicked
  | .EventKey .KeyOther _ => .running o []
  | .EventOther => .running o []

/-- What happens during a session of `Focus`: the screen delivers an event, or the
goroutine reading `selection` receives a choice and assigns
`o.ActiveIndex = choice.Index`.  Each input is a whole iteration of the loop or a
whole assignment; `Step` adds the assignment that lands inside an iteration. -/
inductive Input where
  | screen (ev : Event)
  | selection (c : Choice)
  deriving DecidableEq, Repr

/-- The method `Options.Focus` over the inputs of a session: `some` of the returned
string, or `none` when the inputs end before the loop returns or the loop panics. -/
def Options.Focus : Urlscan.Options → List Input → Option GoString
  | _, [] => none
  | o, .selection c :: rest => Options.Focus { o with ActiveIndex := c.Index } rest
  | o, .screen ev :: rest =>
    match o.poll ev with
    | .running o2 _ => Options.Focus o2 rest
    | .returned s => some s
    | .panicked => none

/-- The last three statements of `main`: `some url` when `browser.OpenURL(url)` is
called, `none` when `main` returns without calling it (also when the session does
not return). -/
def mainOpens (urls : List GoString) (inputs : List Input) : Option GoString :=
  match (NewOptions urls).Focus inputs with
  | some action => if action = strExit then none else some action
  | none => none

/-- The test of `Options.Up`, `o.ActiveIndex == 0`: its first read of the field. -/
def Options.UpTest (o : Urlscan.Options) : Bool := decide (o.ActiveIndex = 0)

/-- The update of `Options.Up` that follows its test, on the value the field has
by then: `o.ActiveIndex = len(o.Options) - 1` when the test held, else
`o.ActiveIndex--`. -/
def Options.UpUpdate (o : Urlscan.Options) (test : Bool) : Urlscan.Options :=
  if test then { o with ActiveIndex := (o.Options.length : Int) - 1 }
  else { o with ActiveIndex := o.ActiveIndex - 1 }

/-- The test of `Options.Down`, `o.ActiveIndex == len(o.Options)-1`: its first read
of the field. -/
def Options.DownTest (o : Urlscan.Options) : Bool :=
  decide (o.ActiveIndex = (o.Options.length : Int) - 1)

/-- The update of `Options.Down` that follows its test, on the value the field has
by then: `o.ActiveIndex = 0` when the test held, else `o.ActiveIndex++`. -/
def Options.DownUpdate (o : Urlscan.Options) (test : Bool) : Urlscan.Options :=
  if test then { o with ActiveIndex := 0 }
  else { o with ActiveIndex := o.ActiveIndex + 1 }

/-- The assignment `o.ActiveIndex = choice.Index` of the goroutine that `Focus`
starts to read `selection`. -/
def Options.assign (o : Urlscan.Options) (c : Choice) : Urlscan.Options :=
  { o with ActiveIndex := c.Index }

/-- The method `Up` when the assignment of the goroutine lands between its test and
its update: the two goroutines write `ActiveIndex` with no lock between them. -/
def Options.UpRaced (o : Urlscan.Options) (c : Choice) : Urlscan.Options :=
  (o.assign c).UpUpdate o.UpTest

/-- The method `Down` when the assignment of the goroutine lands between its test
and its update. -/
def Options.DownRaced (o : Urlscan.Options) (c : Choice) : Urlscan.Options :=
  (o.assign c).DownUpdate o.DownTest

/-- One iteration of the loop of `Focus` on the event `ev` while the goroutine
assigns the index of the choice `c`: inside `Up` or `Down` the assignment lands
between the test and the update; for every other event it lands before the
iteration reads the field. -/
def Options.pollRaced (o : Urlscan.Options) (c : Choice) : Event → Poll
  | .EventKey .KeyBacktab _ => .running (o.UpRaced c) []
  | .EventKey .KeyUp _ => .running (o.UpRaced c) []
  | .EventKey .KeyTab _ => .running (o.DownRaced c) []
  | .EventKey .KeyDown _ => .running (o.DownRaced c) []
  | ev => (o.assign c).poll ev

/-- The steps of a session of `Focus` at the grain of the reads and writes of
`ActiveIndex`: an iteration of the loop that no assignment interrupts, an
assignment of the goroutine between two iterations, or an iteration with the
assignment landing inside it. -/
inductive Step where
  | screen (ev : Event)
  | selection (c : Choice)
  | raced (ev : Event) (c : Choice)
  deriving DecidableEq, Repr

/-- The loop of `Focus` over the steps of a session: `returned s` when it returns,
`panicked` when it reaches `o.Options[o.ActiveIndex]` with the index out of range,
`running` with the options reached when the steps end first. -/
def Options.FocusSteps : Urlscan.Options → List Step → Poll
  | o, [] => .running o []
  | o, .selection c :: rest => Options.FocusSteps (o.assign c) rest
  | o, .screen ev :: rest =>
    match o.poll ev with
    | .running o2 _ => Options.FocusSteps o2 rest
    | .returned s => .returned s
    | .panicked => .panicked
  | o, .raced ev c :: rest =>
    match o.pollRaced c ev with
    | .running o2 _ => Options.FocusSteps o2 rest
    | .returned s => .returned s
    | .panicked => .panicked

/-- The index `ActiveIndex` is in `[0, len(Options))`. -/
def Options.InRange (o : Urlscan.Options) : Prop :=
  0 ≤ o.ActiveIndex ∧ o.ActiveIndex < (o.Options.length : Int)

/-- The state of the debouncer is consistent with the key list: either the buffer
is empty and nothing is pending, or the buffer is not empty and `index` is the
position of a key equal to the buffer. -/
def Debouncer.Consistent (keys : List GoString) (st : Debouncer) : Prop :=
  (st.buffer = [] ∧ st.index = -1) ∨
    (st.buffer ≠ [] ∧ ∃ k : Nat, st.index = (k : Int) ∧ k < keys.length ∧
      keys[k]? = some st.buffer)

/-- A choice that points into the key list: `Index` is in range and `Value` is the
key at that index. -/
def Choice.InKeys (keys : List GoString) (c : Choice) : Prop :=
  ∃ k : Nat, c.Index = (k : Int) ∧ k < keys.length ∧ keys[k]? = some c.Value

/-- The visible characters of an ASCII string: its bytes that are not white space
(`unicode.IsSpace`), in order. -/
def visible (s : GoString) : GoString := s.filter (fun b => !IsSpace (b : Int))

/-- The words of an ASCII string from the bytes `cur` of the word being read: the
maximal runs of bytes that are not white space. -/
def wordsFrom : GoString → GoString → List GoString
  | cur, [] => if cur = [] then [] else [cur]
  | cur, b :: t =>
    if IsSpace (b : Int) = true then
      (if cur = [] then wordsFrom [] t else cur :: wordsFrom [] t)
    else wordsFrom (cur ++ [b]) t

/-- The words of an ASCII string. -/
def words (s : GoString) : List GoString := wordsFrom [] s

/-! ## Facts about `HasPrefix` and `choiceIndex` -/

theorem HasPrefix_iff (s pre : GoString) : HasPrefix s pre = true ↔ pre <+: s := by
  unfold HasPrefix
  simp only [Bool.and_eq_true, decide_eq_true_eq]
  constructor
  · rintro ⟨_, h⟩
    rw [← h]
    exact List.take_prefix _ _
  · intro h
    refine ⟨h.length_le, ?_⟩
    exact List.prefix_iff_eq_take.mp h |>.symm

theorem choiceIndexFrom_snd (s : GoString) (l : List GoString) (i : Nat) (acc : Int × Bool) :
    (choiceIndexFrom s l i acc).2 = (acc.2 || l.any (fun c => decide (c ≠ s) && HasPrefix c s)) := by
  induction l generalizing i acc with
  | nil => simp [choiceIndexFrom]
  | cons c cs ih =>
    unfold choiceIndexFrom
    by_cases h1 : c = s
    · simp [h1, ih]
    · by_cases h2 : HasPrefix c s = true
      · simp [h1, h2, ih]
      · simp [h1, h2, ih]

theorem choiceIndexFrom_fst_none (s : GoString) (l : List GoString) (i : Nat) (acc : Int × Bool)
    (h : ∀ c ∈ l, c ≠ s) : (choiceIndexFrom s l i acc).1 = acc.1 := by
  induction l generalizing i acc with
  | nil => simp [choiceIndexFrom]
  | cons c cs ih =>
    have h1 : c ≠ s := h c (List.mem_cons_self _ _)
    have h2 : ∀ c ∈ cs, c ≠ s := fun c hc => h c (List.mem_cons_of_mem _ hc)
    unfold choiceIndexFrom
    by_cases h3 : HasPrefix c s = true
    · simp [h1, h3, ih _ _ h2]
    · simp [h1, h3, ih _ _ h2]

theorem choiceIndexFrom_fst_last (s : GoString) (l : List GoString) (i : Nat) (acc : Int × Bool)
    (k : Nat) (hk : l[k]? = some s) (hlast : ∀ j, k < j → l[j]? ≠ some s) :
    (choiceIndexFrom s l i acc).1 = ((i + k : Nat) : Int) := by
  induction l generalizing i acc k with
  | nil => simp at hk
  | cons c cs ih =>
    unfold choiceIndexFrom
    cases k with
    | zero =>
      have hc : c = s := by simpa using hk
      have hcs : ∀ d ∈ cs, d ≠ s := by
        intro d hd hds
        obtain ⟨j, hj⟩ := List.mem_iff_getElem?.mp hd
        exact hlast (j + 1) (Nat.succ_pos _) (by simpa [hds] using hj)
      simp [hc, choiceIndexFrom_fst_none s cs _ _ hcs]
    | succ k =>
      have hk2 : cs[k]? = some s := by simpa using hk
      have hl2 : ∀ j, k < j → cs[j]? ≠ some s := by
        intro j hj
        have := hlast (j + 1) (by omega)
        simpa using this
      by_cases h1 : c = s
      · rw [if_pos h1, ih _ _ k hk2 hl2]
        congr 1
        omega
      · rw [if_neg h1]
        by_cases h3 : HasPrefix c s = true
        · rw [if_pos h3, ih _ _ k hk2 hl2]
          congr 1
          omega
        · rw [if_neg h3, ih _ _ k hk2 hl2]
          congr 1
          omega

theorem choiceIndexFrom_fst_cases (s : GoString) (l : List GoString) (i : Nat) (acc : Int × Bool) :
    (choiceIndexFrom s l i acc).1 = acc.1 ∨
      ∃ k, l[k]? = some s ∧ (choiceIndexFrom s l i acc).1 = ((i + k : Nat) : Int) := by
  by_cases h : ∀ c ∈ l, c ≠ s
  · exact Or.inl (choiceIndexFrom_fst_none s l i acc h)
  · right
    push_neg at h
    obtain ⟨c, hc, rfl⟩ := h
    -- take the last position holding `c`
    have hex : ∃ k, k < l.length ∧ l[k]? = some c := by
      obtain ⟨j, hj⟩ := List.mem_iff_getElem?.mp hc
      refine ⟨j, ?_, hj⟩
      by_contra hlt
      rw [List.getElem?_eq_none (by omega)] at hj
      cases hj
    classical
    let P : Nat → Prop := fun k => k < l.length ∧ l[k]? = some c
    have hP : ∃ k, P k := hex
    have hb : ∀ k, P k → k ≤ l.length := fun k hk => hk.1.le
    obtain ⟨hm1, hm2⟩ : P (Nat.findGreatest P l.length) ∧
        ∀ j, Nat.findGreatest P l.length < j → j ≤ l.length → ¬ P j := by
      obtain ⟨k, hk⟩ := hP
      exact ⟨Nat.findGreatest_spec (hb k hk) hk, fun j hj hjl => Nat.findGreatest_is_greatest hj hjl⟩
    refine ⟨Nat.findGreatest P l.length, hm1.2, ?_⟩
    apply choiceIndexFrom_fst_last _ _ _ _ _ hm1.2
    intro j hj hjc
    have hjl : j < l.length := by
      by_contra hlt
      rw [List.getElem?_eq_none (by omega)] at hjc
      cases hjc
    exact hm2 j hj hjl.le ⟨hjl, hjc⟩

/-- The index `choiceIndex` returns is -1 or the position of a key equal to the
buffer, so `options[index]` in `NewChoice` is in range. -/
theorem choiceIndex_fst_cases (keys : List GoString) (s : GoString) :
    (choiceIndex keys s).1 = -1 ∨
      ∃ k : Nat, keys[k]? = some s ∧ (choiceIndex keys s).1 = (k : Int) := by
  unfold choiceIndex
  rcases choiceIndexFrom_fst_cases s keys 0 (-1, false) with h | ⟨k, hk, h⟩
  · exact Or.inl h
  · exact Or.inr ⟨k, hk, by rw [h]; simp⟩

theorem choiceIndex_snd_iff (keys : List GoString) (s : GoString) :
    (choiceIndex keys s).2 = true ↔ ∃ c ∈ keys, c ≠ s ∧ s <+: c := by
  unfold choiceIndex
  rw [choiceIndexFrom_snd]
  simp [HasPrefix_iff]

theorem choiceIndex_fst_last (keys : List GoString) (s : GoString) (k : Nat)
    (hk : keys[k]? = some s) (hlast : ∀ j, k < j → keys[j]? ≠ some s) :
    (choiceIndex keys s).1 = (k : Int) := by
  unfold choiceIndex
  rw [choiceIndexFrom_fst_last s keys 0 _ k hk hlast]
  simp

theorem choiceIndex_fst_none (keys : List GoString) (s : GoString) (h : ∀ c ∈ keys, c ≠ s) :
    (choiceIndex keys s).1 = -1 := by
  unfold choiceIndex
  rw [choiceIndexFrom_fst_none s keys 0 _ h]

theorem optionAt_of_getElem? (keys : List GoString) (k : Nat) (s : GoString)
    (hk : keys[k]? = some s) : optionAt keys (k : Int) = s := by
  unfold optionAt
  simp [List.getD_eq_getElem?_getD, hk]

/-! ## Facts about `FormatInt` and the key-space `ChoiceOptionIndex` -/

theorem formatDecimal_fuel (f1 f2 n : Nat) (h1 : n ≤ f1) (h2 : n ≤ f2) :
    formatDecimal f1 n = formatDecimal f2 n := by
  induction f1 generalizing f2 n with
  | zero =>
    have hn : n = 0 := by omega
    subst hn
    cases f2 <;> simp [formatDecimal]
  | succ f1 ih =>
    cases f2 with
    | zero =>
      have hn : n = 0 := by omega
      subst hn
      simp [formatDecimal]
    | succ f2 =>
      unfold formatDecimal
      by_cases hlt : n < 10
      · simp [hlt]
      · simp only [hlt, if_false]
        rw [ih f2 (n / 10) (by omega) (by omega)]

theorem FormatInt_lt (n : Nat) (h : n < 10) : FormatInt n = [48 + n] := by
  unfold FormatInt
  cases n with
  | zero => simp [formatDecimal]
  | succ n => simp [formatDecimal, h]

theorem FormatInt_ge (n : Nat) (h : 10 ≤ n) :
    FormatInt n = FormatInt (n / 10) ++ [48 + n % 10] := by
  unfold FormatInt
  cases n with
  | zero => omega
  | succ n =>
    have hlt : ¬ (n + 1 < 10) := by omega
    rw [formatDecimal, if_neg hlt]
    rw [formatDecimal_fuel n ((n + 1) / 10) ((n + 1) / 10) (by omega) (le_refl _)]

theorem FormatInt_ne_nil (n : Nat) : FormatInt n ≠ [] := by
  by_cases h : n < 10
  · rw [FormatInt_lt n h]; simp
  · rw [FormatInt_ge n (by omega)]; simp

theorem FormatInt_injective (a b : Nat) (h : FormatInt a = FormatInt b) : a = b := by
  induction a using Nat.strong_induction_on generalizing b with
  | _ a ih =>
    by_cases ha : a < 10
    · by_cases hb : b < 10
      · rw [FormatInt_lt a ha, FormatInt_lt b hb] at h
        simpa using h
      · rw [FormatInt_lt a ha, FormatInt_ge b (by omega)] at h
        have := congrArg List.length h
        have hne := FormatInt_ne_nil (b / 10)
        have hpos : 0 < (FormatInt (b / 10)).length := List.length_pos.mpr hne
        rw [List.length_append, List.length_singleton, List.length_singleton] at this
        omega
    · by_cases hb : b < 10
      · rw [FormatInt_ge a (by omega), FormatInt_lt b hb] at h
        have := congrArg List.length h
        have hne := FormatInt_ne_nil (a / 10)
        have hpos : 0 < (FormatInt (a / 10)).length := List.length_pos.mpr hne
        rw [List.length_append, List.length_singleton, List.length_singleton] at this
        omega
      · rw [FormatInt_ge a (by omega), FormatInt_ge b (by omega)] at h
        have h2 := List.append_inj' h (by simp)
        have h3 := ih (a / 10) (by omega) (b / 10) h2.1
        have h4 : a % 10 = b % 10 := by simpa using h2.2
        omega

/-- Every byte of a decimal key is an ASCII digit. -/
theorem FormatInt_digits (n : Nat) : ∀ b ∈ FormatInt n, 48 ≤ b ∧ b ≤ 57 := by
  induction n using Nat.strong_induction_on with
  | _ n ih =>
    by_cases h : n < 10
    · rw [FormatInt_lt n h]
      intro b hb
      simp at hb
      omega
    · rw [FormatInt_ge n (by omega)]
      intro b hb
      rcases List.mem_append.mp hb with hb | hb
      · exact ih (n / 10) (by omega) b hb
      · simp at hb
        omega

theorem ChoiceOptionIndex_getElem? (options : List GoString) (m : Nat) (hm : m < options.length) :
    (ChoiceOptionIndex options)[m]? = some (FormatInt m) := by
  unfold ChoiceOptionIndex
  simp [List.getElem?_map, List.getElem?_range hm]

theorem ChoiceOptionIndex_getElem?_some (options : List GoString) (j : Nat) (c : GoString)
    (h : (ChoiceOptionIndex options)[j]? = some c) : j < options.length ∧ c = FormatInt j := by
  unfold ChoiceOptionIndex at h
  have hj : j < options.length := by
    by_contra hlt
    rw [List.getElem?_eq_none (by simp; omega)] at h
    cases h
  refine ⟨hj, ?_⟩
  simp [List.getElem?_map, List.getElem?_range hj] at h
  exact h.symm

theorem choiceIndex_key_fst (options : List GoString) (m : Nat) (hm : m < options.length) :
    (choiceIndex (ChoiceOptionIndex options) (FormatInt m)).1 = (m : Int) := by
  apply choiceIndex_fst_last _ _ _ (ChoiceOptionIndex_getElem? options m hm)
  intro j hj hjc
  have := (ChoiceOptionIndex_getElem?_some options j _ hjc).2
  have := FormatInt_injective _ _ this
  omega

theorem choiceIndex_key_pending (options : List GoString) (n : Nat) (hn : n < options.length)
    (h10 : 10 ≤ n) : (choiceIndex (ChoiceOptionIndex options) (FormatInt (n / 10))).2 = true := by
  rw [choiceIndex_snd_iff]
  refine ⟨FormatInt n, ?_, ?_, ?_⟩
  · exact List.mem_iff_getElem?.mpr ⟨n, ChoiceOptionIndex_getElem? options n hn⟩
  · intro h
    have := FormatInt_injective _ _ h
    omega
  · rw [FormatInt_ge n h10]
    exact List.prefix_append _ _

theorem encodeRune_ascii (b : Nat) (h : b < 128) : encodeRune (b : Int) = [b] := by
  unfold encodeRune
  have h1 : ¬ ((b : Int) < 0) := by omega
  simp [h1, h]

/-! ## Facts about the debouncer loop -/

theorem Debouncer.run_append (keys : List GoString) (st : Debouncer) (a b : List DEvent) :
    Debouncer.run keys st (a ++ b) =
      ((Debouncer.run keys (Debouncer.run keys st a).1 b).1,
        (Debouncer.run keys st a).2 ++ (Debouncer.run keys (Debouncer.run keys st a).1 b).2) := by
  induction a generalizing st with
  | nil => simp [Debouncer.run]
  | cons ev evs ih => simp [Debouncer.run, ih, List.append_assoc]

/-- The rune case of the loop when the new buffer is the key of index `n` in the
decimal key-space. -/
theorem Debouncer.step_key (options : List GoString) (st : Debouncer) (r : Int) (n : Nat)
    (hn : n < options.length) (hb : st.buffer ++ encodeRune r = FormatInt n) :
    Debouncer.step (ChoiceOptionIndex options) st (.rune r) =
      if (choiceIndex (ChoiceOptionIndex options) (FormatInt n)).2 = true
      then (⟨FormatInt n, (n : Int)⟩, [])
      else (Debouncer.init, [⟨(n : Int), FormatInt n⟩]) := by
  have h1 := choiceIndex_key_fst options n hn
  have h2 := optionAt_of_getElem? _ _ _ (ChoiceOptionIndex_getElem? options n hn)
  unfold Debouncer.step
  simp only [hb]
  rcases hci : choiceIndex (ChoiceOptionIndex options) (FormatInt n) with ⟨idx, mp⟩
  rw [hci] at h1
  simp only at h1
  subst h1
  have hneg : ¬ ((n : Int) < 0) := by omega
  cases mp <;> simp [hneg, h2, Debouncer.init]

/-- The events of typing the decimal digits of `i`, one rune per digit. -/
theorem Debouncer.run_typed (options : List GoString) (n : Nat) (hn : n < options.length) :
    Debouncer.run (ChoiceOptionIndex options) Debouncer.init
        ((FormatInt n).map (fun (b : Nat) => DEvent.rune (b : Int))) =
      if (choiceIndex (ChoiceOptionIndex options) (FormatInt n)).2 = true
      then (⟨FormatInt n, (n : Int)⟩, [])
      else (Debouncer.init, [⟨(n : Int), FormatInt n⟩]) := by
  induction n using Nat.strong_induction_on with
  | _ n ih =>
    by_cases h : n < 10
    · have hstep := Debouncer.step_key options Debouncer.init ((48 + n : Nat) : Int) n hn
        (by rw [encodeRune_ascii _ (by omega), FormatInt_lt n h]; simp [Debouncer.init])
      rw [FormatInt_lt n h] at hstep ⊢
      simp only [List.map, Debouncer.run, hstep]
      split <;> simp
    · have h10 : 10 ≤ n := by omega
      have hprev := ih (n / 10) (by omega) (by omega)
      rw [if_pos (choiceIndex_key_pending options n hn h10)] at hprev
      have hstep := Debouncer.step_key options ⟨FormatInt (n / 10), ((n / 10 : Nat) : Int)⟩
        ((48 + n % 10 : Nat) : Int) n hn
        (by rw [encodeRune_ascii _ (by omega), FormatInt_ge n h10])
      rw [FormatInt_ge n h10, List.map_append, Debouncer.run_append, hprev]
      rw [FormatInt_ge n h10] at hstep
      simp only [List.map, Debouncer.run, hstep]
      split <;> simp

/-! ## The debouncer claims -/

/-- C1: over the key-space `ChoiceOptionIndex` of N options, for every index
`i < N`, starting from the initial state, the runes of the decimal digits of `i`
followed by one timer tick send exactly one choice, `Choice{Index: i, Value:
decimal(i)}`, and leave the debouncer in its initial state. -/
theorem debounce_typed_index (options : List GoString) (i : Nat) (hi : i < options.length) :
    Debouncer.run (ChoiceOptionIndex options) Debouncer.init
        ((FormatInt i).map (fun (b : Nat) => DEvent.rune (b : Int)) ++ [DEvent.tick]) =
      (Debouncer.init, [⟨(i : Int), FormatInt i⟩]) := by
  rw [Debouncer.run_append, Debouncer.run_typed options i hi]
  have h2 := optionAt_of_getElem? _ _ _ (ChoiceOptionIndex_getElem? options i hi)
  have hpos : ((i : Int) > -1) := by omega
  by_cases hmp : (choiceIndex (ChoiceOptionIndex options) (FormatInt i)).2 = true
  · simp [hmp, Debouncer.run, Debouncer.step, hpos, h2, Debouncer.init]
  · simp [hmp, Debouncer.run, Debouncer.step, Debouncer.init]

/-- Witness of C1: twelve options, index 11. -/
theorem debounce_typed_index_witness :
    Debouncer.run (ChoiceOptionIndex (List.replicate 12 [])) Debouncer.init
        ((FormatInt 11).map (fun (b : Nat) => DEvent.rune (b : Int)) ++ [DEvent.tick]) =
      (Debouncer.init, [⟨(11 : Int), FormatInt 11⟩]) :=
  debounce_typed_index (List.replicate 12 []) 11 (by decide)

/-- C2 as stated fails when the key list holds the buffer twice: with the keys
"1", "1", "10" the buffer "1" equals the key at index 0 and is a proper prefix of
"10", but the tick sends `Choice{Index: 1}`, not `Choice{Index: 0}`. -/
theorem prefix_ambiguity_duplicate_key :
    [[49], [49], [49, 48]][0]? = some (Debouncer.init.buffer ++ encodeRune 49) ∧
    (∃ c ∈ [[49], [49], [49, 48]],
      c ≠ Debouncer.init.buffer ++ encodeRune 49 ∧ Debouncer.init.buffer ++ encodeRune 49 <+: c) ∧
    Debouncer.step [[49], [49], [49, 48]] Debouncer.init (.rune 49) = (⟨[49], 1⟩, []) ∧
    Debouncer.step [[49], [49], [49, 48]] ⟨[49], 1⟩ .tick = (Debouncer.init, [⟨1, [49]⟩]) ∧
    (Debouncer.step [[49], [49], [49, 48]] ⟨[49], 1⟩ .tick).2 ≠ [⟨0, [49]⟩] := by
  decide

/-- C2 (amended): for every key list and every state, if after appending the typed
rune the buffer equals the key at index `i`, equals no key at a later index, and is
a proper prefix of some other key, then the keystroke sends nothing and keeps the
buffer, with `i` pending; a timer tick that comes next sends exactly
`Choice{Index: i, Value: keys[i]}` and leaves the initial state (nothing pending,
empty buffer). -/
theorem prefix_ambiguity_pending (keys : List GoString) (st : Debouncer) (r : Int) (i : Nat)
    (hi : keys[i]? = some (st.buffer ++ encodeRune r))
    (hlast : ∀ j, i < j → keys[j]? ≠ some (st.buffer ++ encodeRune r))
    (hpre : ∃ c ∈ keys, c ≠ st.buffer ++ encodeRune r ∧ st.buffer ++ encodeRune r <+: c) :
    Debouncer.step keys st (.rune r) = (⟨st.buffer ++ encodeRune r, (i : Int)⟩, []) ∧
    Debouncer.step keys (Debouncer.step keys st (.rune r)).1 .tick =
      (Debouncer.init, [⟨(i : Int), st.buffer ++ encodeRune r⟩]) := by
  have h1 := choiceIndex_fst_last keys _ i hi hlast
  have h2 := (choiceIndex_snd_iff keys (st.buffer ++ encodeRune r)).mpr hpre
  have h3 := optionAt_of_getElem? keys i _ hi
  have hstep : Debouncer.step keys st (.rune r) = (⟨st.buffer ++ encodeRune r, (i : Int)⟩, []) := by
    have hneg : ¬ ((i : Int) < 0) := by omega
    simp [Debouncer.step, h1, h2, hneg]
  refine ⟨hstep, ?_⟩
  rw [hstep]
  have hpos : ((i : Int) > -1) := by omega
  simp [Debouncer.step, hpos, h3, Debouncer.init]

/-- Witness of C2: the keys "0" .. "11" and the rune '1'. -/
theorem prefix_ambiguity_pending_witness :
    Debouncer.step (ChoiceOptionIndex (List.replicate 12 [])) Debouncer.init (.rune 49) =
      (⟨[49], 1⟩, []) ∧
    Debouncer.step (ChoiceOptionIndex (List.replicate 12 []))
        (Debouncer.step (ChoiceOptionIndex (List.replicate 12 [])) Debouncer.init (.rune 49)).1
        .tick = (Debouncer.init, [⟨1, [49]⟩]) :=
  prefix_ambiguity_pending (ChoiceOptionIndex (List.replicate 12 [])) Debouncer.init 49 1
    (by decide)
    (by
      intro j hj h
      have hj2 := (ChoiceOptionIndex_getElem?_some _ j _ h).2
      have : FormatInt 1 = FormatInt j := by rw [← hj2]; decide
      have := FormatInt_injective _ _ this
      omega)
    (by decide)

/-- C3: for every key list and every state, if after appending the typed rune the
buffer equals the key at index `i` and no other key has the buffer as a prefix,
then the keystroke itself sends exactly `Choice{Index: i, Value: keys[i]}` and
leaves the initial state (empty buffer, nothing pending), so that a following timer
tick sends nothing. -/
theorem unambiguous_immediate (keys : List GoString) (st : Debouncer) (r : Int) (i : Nat)
    (hi : keys[i]? = some (st.buffer ++ encodeRune r))
    (hother : ∀ j c, j ≠ i → keys[j]? = some c → ¬ (st.buffer ++ encodeRune r <+: c)) :
    Debouncer.step keys st (.rune r) =
      (Debouncer.init, [⟨(i : Int), st.buffer ++ encodeRune r⟩]) ∧
    Debouncer.step keys (Debouncer.step keys st (.rune r)).1 .tick = (Debouncer.init, []) := by
  have h1 := choiceIndex_fst_last keys _ i hi
    (fun j hj hjc => hother j _ (by omega) hjc (List.prefix_refl _))
  have h2 : (choiceIndex keys (st.buffer ++ encodeRune r)).2 = false := by
    rw [Bool.eq_false_iff]
    intro h
    obtain ⟨c, hc, hne, hpre⟩ := (choiceIndex_snd_iff keys _).mp h
    obtain ⟨j, hj⟩ := List.mem_iff_getElem?.mp hc
    by_cases hji : j = i
    · subst hji
      rw [hi] at hj
      exact hne (Option.some.inj hj).symm
    · exact hother j c hji hj hpre
  have h3 := optionAt_of_getElem? keys i _ hi
  have hstep : Debouncer.step keys st (.rune r) =
      (Debouncer.init, [⟨(i : Int), st.buffer ++ encodeRune r⟩]) := by
    have hneg : ¬ ((i : Int) < 0) := by omega
    simp [Debouncer.step, h1, h2, hneg, h3, Debouncer.init]
  refine ⟨hstep, ?_⟩
  rw [hstep]
  simp [Debouncer.step, Debouncer.init]

/-- Witness of C3: the keys "0", "1", "2" and the rune '2'. -/
theorem unambiguous_immediate_witness :
    Debouncer.step [[48], [49], [50]] Debouncer.init (.rune 50) =
      (Debouncer.init, [⟨2, [50]⟩]) ∧
    Debouncer.step [[48], [49], [50]]
      (Debouncer.step [[48], [49], [50]] Debouncer.init (.rune 50)).1 .tick =
      (Debouncer.init, []) :=
  unambiguous_immediate [[48], [49], [50]] Debouncer.init 50 2 (by decide)
    (by
      intro j c hj hc
      match j, hj, hc with
      | 0, _, hc => cases hc; decide
      | 1, _, hc => cases hc; decide
      | 2, hj, _ => exact absurd rfl hj
      | _ + 3, _, hc => cases hc)

/-- C4: for every key list and every state, if after appending the typed rune the
buffer neither equals any key nor is a prefix of any key, then the keystroke sends
nothing and leaves the initial state (empty buffer, nothing pending), so every
later sequence of events runs exactly as from a fresh debouncer. -/
theorem invalid_buffer_reset (keys : List GoString) (st : Debouncer) (r : Int)
    (h : ∀ c ∈ keys, c ≠ st.buffer ++ encodeRune r ∧ ¬ (st.buffer ++ encodeRune r <+: c)) :
    Debouncer.step keys st (.rune r) = (Debouncer.init, []) ∧
    ∀ evs, Debouncer.run keys (Debouncer.step keys st (.rune r)).1 evs =
      Debouncer.run keys Debouncer.init evs := by
  have h1 := choiceIndex_fst_none keys (st.buffer ++ encodeRune r) (fun c hc => (h c hc).1)
  have hstep : Debouncer.step keys st (.rune r) = (Debouncer.init, []) := by
    simp [Debouncer.step, h1, Debouncer.init]
  refine ⟨hstep, ?_⟩
  intro evs
  rw [hstep]

/-- Witness of C4: the keys "0", "1", "2"; the rune '9' sends nothing and resets,
and the rune '1' typed next sends `Choice{Index: 1}`, as from a fresh debouncer. -/
theorem invalid_buffer_reset_witness :
    Debouncer.step [[48], [49], [50]] Debouncer.init (.rune 57) = (Debouncer.init, []) ∧
    Debouncer.run [[48], [49], [50]]
        (Debouncer.step [[48], [49], [50]] Debouncer.init (.rune 57)).1 [.rune 49] =
      Debouncer.run [[48], [49], [50]] Debouncer.init [.rune 49] ∧
    Debouncer.run [[48], [49], [50]] Debouncer.init [.rune 57, .rune 49] =
      (Debouncer.init, [⟨1, [49]⟩]) :=
  ⟨(invalid_buffer_reset [[48], [49], [50]] Debouncer.init 57 (by decide)).1,
    (invalid_buffer_reset [[48], [49], [50]] Debouncer.init 57 (by decide)).2 [.rune 49],
    by decide⟩

/-! ## The selection model and the event loop -/

theorem Options.Up_Options (o : Urlscan.Options) : o.Up.Options = o.Options := by
  unfold Options.Up
  split <;> rfl

theorem Options.Down_Options (o : Urlscan.Options) : o.Down.Options = o.Options := by
  unfold Options.Down
  split <;> rfl

theorem Options.Up_index (o : Urlscan.Options) (h0 : 0 ≤ o.ActiveIndex)
    (h1 : o.ActiveIndex < o.Options.length) :
    o.Up.ActiveIndex = (o.ActiveIndex - 1) % (o.Options.length : Int) := by
  unfold Options.Up
  by_cases h : o.ActiveIndex = 0
  · rw [if_pos h, h]
    show (o.Options.length : Int) - 1 = (0 - 1) % (o.Options.length : Int)
    have h2 : (0 - 1 : Int) = ((o.Options.length : Int) - 1) + (-1) * (o.Options.length : Int) := by
      ring
    rw [h2, Int.add_mul_emod_self, Int.emod_eq_of_lt (by omega) (by omega)]
  · rw [if_neg h]
    show o.ActiveIndex - 1 = (o.ActiveIndex - 1) % (o.Options.length : Int)
    rw [Int.emod_eq_of_lt (by omega) (by omega)]

theorem Options.Down_index (o : Urlscan.Options) (h0 : 0 ≤ o.ActiveIndex)
    (h1 : o.ActiveIndex < o.Options.length) :
    o.Down.ActiveIndex = (o.ActiveIndex + 1) % (o.Options.length : Int) := by
  unfold Options.Down
  by_cases h : o.ActiveIndex = (o.Options.length : Int) - 1
  · rw [if_pos h, h]
    show (0 : Int) = ((o.Options.length : Int) - 1 + 1) % (o.Options.length : Int)
    simp
  · rw [if_neg h]
    show o.ActiveIndex + 1 = (o.ActiveIndex + 1) % (o.Options.length : Int)
    rw [Int.emod_eq_of_lt (by omega) (by omega)]

theorem Options.Down_iterate (o : Urlscan.Options) (h0 : 0 ≤ o.ActiveIndex)
    (h1 : o.ActiveIndex < o.Options.length) (k : Nat) :
    (Options.Down^[k] o).Options = o.Options ∧
      (Options.Down^[k] o).ActiveIndex = (o.ActiveIndex + k) % (o.Options.length : Int) := by
  have hN : (0 : Int) < (o.Options.length : Int) := by omega
  induction k with
  | zero =>
    refine ⟨rfl, ?_⟩
    simp [Int.emod_eq_of_lt h0 h1]
  | succ k ih =>
    rw [Function.iterate_succ_apply']
    obtain ⟨ih1, ih2⟩ := ih
    refine ⟨by rw [Options.Down_Options, ih1], ?_⟩
    rw [Options.Down_index _ (by rw [ih2]; exact Int.emod_nonneg _ (by omega))
      (by rw [ih2, ih1]; exact Int.emod_lt_of_pos _ hN), ih1, ih2, Int.emod_add_emod]
    congr 1
    push_cast
    ring

theorem Options.Up_iterate (o : Urlscan.Options) (h0 : 0 ≤ o.ActiveIndex)
    (h1 : o.ActiveIndex < o.Options.length) (k : Nat) :
    (Options.Up^[k] o).Options = o.Options ∧
      (Options.Up^[k] o).ActiveIndex = (o.ActiveIndex - k) % (o.Options.length : Int) := by
  have hN : (0 : Int) < (o.Options.length : Int) := by omega
  induction k with
  | zero =>
    refine ⟨rfl, ?_⟩
    simp [Int.emod_eq_of_lt h0 h1]
  | succ k ih =>
    rw [Function.iterate_succ_apply']
    obtain ⟨ih1, ih2⟩ := ih
    refine ⟨by rw [Options.Up_Options, ih1], ?_⟩
    have e : o.ActiveIndex - ((k + 1 : Nat) : Int) = (o.ActiveIndex - (k : Int)) - 1 := by
      push_cast
      ring
    rw [Options.Up_index _ (by rw [ih2]; exact Int.emod_nonneg _ (by omega))
      (by rw [ih2, ih1]; exact Int.emod_lt_of_pos _ hN), ih1, ih2, e,
      Int.sub_emod (o.ActiveIndex - (k : Int)) 1,
      Int.sub_emod ((o.ActiveIndex - (k : Int)) % (o.Options.length : Int)) 1,
      Int.emod_emod_of_dvd _ (dvd_refl _)]

/-- C7: in the loop of `Focus`, for a non-empty option list and an `ActiveIndex`
in range, an Enter key ends the session and returns `Options[ActiveIndex]`; an
Escape key, or a key event carrying the rune 'q', ends it and returns "quit"; every
other event leaves the session running. -/
theorem session_termination (o : Urlscan.Options) (hne : o.Options ≠ [])
    (h0 : 0 ≤ o.ActiveIndex) (h1 : o.ActiveIndex < o.Options.length) :
    (∀ r rest, ∃ s, o.Options[o.ActiveIndex.toNat]? = some s ∧
      o.poll (.EventKey .KeyEnter r) = .returned s ∧
      o.Focus (.screen (.EventKey .KeyEnter r) :: rest) = some s) ∧
    (∀ r rest, o.poll (.EventKey .KeyEscape r) = .returned strQuit ∧
      o.Focus (.screen (.EventKey .KeyEscape r) :: rest) = some strQuit) ∧
    (∀ rest, o.poll (.EventKey .KeyRune 113) = .returned strQuit ∧
      o.Focus (.screen (.EventKey .KeyRune 113) :: rest) = some strQuit) ∧
    (∀ ev rest, (∀ r, ev ≠ .EventKey .KeyEnter r) → (∀ r, ev ≠ .EventKey .KeyEscape r) →
      ev ≠ .EventKey .KeyRune 113 →
      ∃ o2 sent, o.poll ev = .running o2 sent ∧ o.Focus (.screen ev :: rest) = o2.Focus rest) := by
  have hlt : o.ActiveIndex.toNat < o.Options.length := by omega
  refine ⟨?_, ?_, ?_, ?_⟩
  · intro r rest
    refine ⟨o.Options[o.ActiveIndex.toNat], List.getElem?_eq_getElem hlt, ?_⟩
    have hp : o.poll (.EventKey .KeyEnter r) = .returned (o.Options[o.ActiveIndex.toNat]) := by
      simp [Options.poll, h0, h1, List.getD_eq_getElem?_getD, List.getElem?_eq_getElem hlt]
    exact ⟨hp, by simp [Options.Focus, hp]⟩
  · intro r rest
    exact ⟨rfl, rfl⟩
  · intro rest
    exact ⟨rfl, rfl⟩
  · intro ev rest hE hX hQ
    cases ev with
    | EventResize => exact ⟨o, [], rfl, rfl⟩
    | EventOther => exact ⟨o, [], rfl, rfl⟩
    | EventKey key r =>
      cases key with
      | KeyBacktab => exact ⟨o.Up, [], rfl, rfl⟩
      | KeyTab => exact ⟨o.Down, [], rfl, rfl⟩
      | KeyUp => exact ⟨o.Up, [], rfl, rfl⟩
      | KeyDown => exact ⟨o.Down, [], rfl, rfl⟩
      | KeyOther => exact ⟨o, [], rfl, rfl⟩
      | KeyEscape => exact absurd rfl (hX r)
      | KeyEnter => exact absurd rfl (hE r)
      | KeyRune =>
        have hr : r ≠ 113 := fun h => hQ (by rw [h])
        have hp : o.poll (.EventKey .KeyRune r) = .running o [r] := by
          simp [Options.poll, hr]
        exact ⟨o, [r], hp, by simp [Options.Focus, hp]⟩

/-- Witness of C7: the options "a", "b" with the second one active. -/
theorem session_termination_witness :
    (⟨0, 0, [[97], [98]], 1, -1⟩ : Urlscan.Options).poll (.EventKey .KeyEnter 0) =
      .returned [98] :=
  by
    obtain ⟨s, hs, hp, _⟩ := (session_termination ⟨0, 0, [[97], [98]], 1, -1⟩ (by decide)
      (by decide) (by decide)).1 0 []
    have : s = [98] := by
      have h2 : (⟨0, 0, [[97], [98]], 1, -1⟩ : Urlscan.Options).Options[(1 : Int).toNat]? =
          some [98] := by decide
      exact Option.some.inj (hs.symm.trans h2)
    rw [hp, this]

/-- C8 fails on the code: when the session is cancelled with Escape (or 'q'),
`Focus` returns "quit", `main` compares the result with "Exit", and so
`browser.OpenURL("quit")` is called. -/
theorem main_opens_quit_on_cancel (urls : List GoString) (r : Int) (rest : List Input) :
    mainOpens urls (.screen (.EventKey .KeyEscape r) :: rest) = some strQuit ∧
    mainOpens urls (.screen (.EventKey .KeyRune 113) :: rest) = some strQuit := by
  constructor <;> simp [mainOpens, Options.Focus, Options.poll, strQuit, strExit]

/-- C9: for `N >= 1` options and `ActiveIndex = a` in `[0, N)`, `Up` sets
`ActiveIndex` to `(a + N - 1) mod N` (from 0 to `N - 1`), `Down` sets it to
`(a + 1) mod N` (from `N - 1` to 0), and neither changes the option list or
`CancelIndex`. -/
theorem wraparound_navigation (o : Urlscan.Options) (hN : 1 ≤ o.Options.length)
    (h0 : 0 ≤ o.ActiveIndex) (h1 : o.ActiveIndex < o.Options.length) :
    o.Up.ActiveIndex = (o.ActiveIndex + o.Options.length - 1) % (o.Options.length : Int) ∧
    o.Down.ActiveIndex = (o.ActiveIndex + 1) % (o.Options.length : Int) ∧
    (o.ActiveIndex = 0 → o.Up.ActiveIndex = (o.Options.length : Int) - 1) ∧
    (o.ActiveIndex = (o.Options.length : Int) - 1 → o.Down.ActiveIndex = 0) ∧
    o.Up.Options = o.Options ∧ o.Up.CancelIndex = o.CancelIndex ∧
    o.Down.Options = o.Options ∧ o.Down.CancelIndex = o.CancelIndex := by
  refine ⟨?_, Options.Down_index o h0 h1, ?_, ?_, Options.Up_Options o, ?_,
    Options.Down_Options o, ?_⟩
  · rw [Options.Up_index o h0 h1]
    have h2 : o.ActiveIndex + (o.Options.length : Int) - 1 =
        (o.ActiveIndex - 1) + (o.Options.length : Int) := by ring
    rw [h2, Int.add_emod_self]
  · intro h
    simp [Options.Up, h]
  · intro h
    simp [Options.Down, h]
  · unfold Options.Up
    split <;> rfl
  · unfold Options.Down
    split <;> rfl

/-- Witness of C9: three options, the first one active. -/
theorem wraparound_navigation_witness :
    (⟨0, 0, [[97], [98], [99]], 0, -1⟩ : Urlscan.Options).Up.ActiveIndex = 2 :=
  ((wraparound_navigation ⟨0, 0, [[97], [98], [99]], 0, -1⟩ (by decide) (by decide)
    (by decide)).2.2.1 rfl).trans (by decide)

/-- C10: for `N >= 1` options and a starting `ActiveIndex` in `[0, N)`, `N`
consecutive calls of `Down` return `ActiveIndex` to its starting value, and so do
`N` consecutive calls of `Up`. -/
theorem full_cycle (o : Urlscan.Options) (hN : 1 ≤ o.Options.length)
    (h0 : 0 ≤ o.ActiveIndex) (h1 : o.ActiveIndex < o.Options.length) :
    (Options.Down^[o.Options.length] o).ActiveIndex = o.ActiveIndex ∧
    (Options.Up^[o.Options.length] o).ActiveIndex = o.ActiveIndex := by
  constructor
  · rw [(Options.Down_iterate o h0 h1 _).2, Int.add_emod_self, Int.emod_eq_of_lt h0 h1]
  · rw [(Options.Up_iterate o h0 h1 _).2]
    have h2 : o.ActiveIndex - (o.Options.length : Int) =
        o.ActiveIndex + (-1) * (o.Options.length : Int) := by ring
    rw [h2, Int.add_mul_emod_self, Int.emod_eq_of_lt h0 h1]

/-- Witness of C10: three options, starting from the second one. -/
theorem full_cycle_witness :
    (Options.Down^[3] (⟨0, 0, [[97], [98], [99]], 1, -1⟩ : Urlscan.Options)).ActiveIndex = 1 ∧
    (Options.Up^[3] (⟨0, 0, [[97], [98], [99]], 1, -1⟩ : Urlscan.Options)).ActiveIndex = 1 :=
  full_cycle ⟨0, 0, [[97], [98], [99]], 1, -1⟩ (by decide) (by decide) (by decide)

/-! ## Facts about the flow engine -/

theorem encodeRune_length_pos (r : Int) : 1 ≤ (encodeRune r).length := by
  unfold encodeRune
  simp only
  split_ifs <;> simp

/-- The indices of `flowProcessor` stay inside the buffer: `lastSpace <= col <=
len(buf)` at the head of the loop, so `end <= col < len(buf)` where the buffer is
sliced and the slices never go out of range. -/
theorem flowStep_inv (w : Int) (st : FlowState) (r : Int)
    (h : st.lastSpace ≤ st.col ∧ st.col ≤ st.buf.length) :
    (flowStep w st r).lastSpace ≤ (flowStep w st r).col ∧
      (flowStep w st r).col ≤ (flowStep w st r).buf.length := by
  unfold flowStep
  have hlen := encodeRune_length_pos r
  by_cases h13 : r = 13
  · simp [h13, h]
  · by_cases h10 : r = 10
    · simp [h10]
    · simp only [h13, h10, if_false]
      by_cases hc : (st.col : Int) = w
      · simp [hc]
      · simp only [hc, if_false, List.length_append]
        constructor
        · split <;> omega
        · omega

theorem DecodeRuneInString_ascii (b : Nat) (t : GoString) (h : b < 128) :
    DecodeRuneInString (b :: t) = ((b : Int), 1) := by
  simp [DecodeRuneInString, h]

theorem rangeRunes_ascii (s : GoString) (fuel : Nat) (hf : s.length ≤ fuel) (h : isASCII s) :
    rangeRunes fuel s = s.map (fun (b : Nat) => (b : Int)) := by
  induction s generalizing fuel with
  | nil => cases fuel <;> simp [rangeRunes]
  | cons b t ih =>
    cases fuel with
    | zero => simp at hf
    | succ fuel =>
      have hb : b < 128 := h b (List.mem_cons_self _ _)
      have ht : isASCII t := fun c hc => h c (List.mem_cons_of_mem _ hc)
      simp only [rangeRunes, DecodeRuneInString_ascii b t hb, List.drop_succ_cons, List.drop_zero,
        List.map_cons]
      rw [ih fuel (by simpa using hf) ht]

/-- The loop `range` over an ASCII string yields its bytes, one rune per byte. -/
theorem runes_ascii (s : GoString) (h : isASCII s) :
    runes s = s.map (fun (b : Nat) => (b : Int)) :=
  rangeRunes_ascii s s.length (le_refl _) h

theorem trimLeft_slice (fuel : Nat) (s : GoString) : trimLeft fuel s <:+ s := by
  induction fuel generalizing s with
  | zero => exact List.suffix_refl _
  | succ fuel ih =>
    cases s with
    | nil => exact List.suffix_refl _
    | cons b t =>
      simp only [trimLeft]
      split
      · exact (ih _).trans (List.drop_suffix _ _)
      · exact List.suffix_refl _

theorem trimRight_slice (fuel : Nat) (s : GoString) : trimRight fuel s <+: s := by
  induction fuel generalizing s with
  | zero => exact List.prefix_refl _
  | succ fuel ih =>
    simp only [trimRight]
    split
    · exact List.prefix_refl _
    · split
      · exact (ih _).trans (List.take_prefix _ _)
      · exact List.prefix_refl _

/-- The result of `strings.TrimSpace` is a slice of its argument. -/
theorem TrimSpace_slice (s : GoString) : TrimSpace s <:+: s := by
  unfold TrimSpace
  exact (trimRight_slice _ _).isInfix.trans (trimLeft_slice _ _).isInfix

theorem TrimSpace_length_le (s : GoString) : (TrimSpace s).length ≤ s.length :=
  (TrimSpace_slice s).length_le

theorem TrimSpace_ascii (s : GoString) (h : isASCII s) : isASCII (TrimSpace s) :=
  fun b hb => h b ((TrimSpace_slice s).subset hb)

theorem flowStep_FlowInv (w : Int) (hw : 1 ≤ w) (st : FlowState) (b : Nat) (hb : b < 128)
    (h : FlowInv w st) : FlowInv w (flowStep w st (b : Int)) := by
  obtain ⟨h1, h2, h3, h4, h5⟩ := h
  unfold flowStep
  rw [encodeRune_ascii b hb]
  by_cases h13 : (b : Int) = 13
  · simp only [h13, if_true]
    exact ⟨h1, h2, h3, h4, h5⟩
  · by_cases h10 : (b : Int) = 10
    · simp only [h10, if_true]
      refine ⟨rfl, le_refl _, by simpa using (by omega : (0 : Int) ≤ w), ?_, ?_⟩
      · intro c hc
        cases hc
      · intro l hl
        rcases List.mem_append.mp hl with hl | hl
        · exact h5 l hl
        · simp only [List.mem_singleton] at hl
          subst hl
          exact ⟨by omega, h4⟩
    · simp only [h13, h10, if_false]
      have hbuf : isASCII (st.buf ++ [b]) := by
        intro c hc
        rcases List.mem_append.mp hc with hc | hc
        · exact h4 c hc
        · simp only [List.mem_singleton] at hc
          omega
      by_cases hc : (st.col : Int) = w
      · simp only [hc, if_true]
        -- the column where the buffer is cut
        generalize he : (if (if IsSpace (b : Int) = true then st.col else st.lastSpace) = 0
          then st.col else (if IsSpace (b : Int) = true then st.col else st.lastSpace)) = e
        have he1 : e ≤ st.col := by
          rw [← he]
          split_ifs <;> omega
        have he2 : 1 ≤ e := by
          rw [← he]
          split_ifs <;> omega
        have hpre : (TrimSpace (List.drop e (st.buf ++ [b]))).length ≤ st.col := by
          have := TrimSpace_length_le (List.drop e (st.buf ++ [b]))
          simp only [List.length_drop, List.length_append, List.length_singleton] at this
          omega
        have hline : (TrimSpace (List.take e (st.buf ++ [b]))).length ≤ st.col := by
          have := TrimSpace_length_le (List.take e (st.buf ++ [b]))
          simp only [List.length_take, List.length_append, List.length_singleton] at this
          omega
        refine ⟨rfl, Nat.zero_le _, ?_, ?_, ?_⟩
        · dsimp only
          omega
        · exact TrimSpace_ascii _ (fun c hc => hbuf c (List.mem_of_mem_drop hc))
        · intro l hl
          rcases List.mem_append.mp hl with hl | hl
          · exact h5 l hl
          · simp only [List.mem_singleton] at hl
            subst hl
            exact ⟨by omega, TrimSpace_ascii _ (fun c hc => hbuf c (List.mem_of_mem_take hc))⟩
      · simp only [hc, if_false]
        refine ⟨by simp [h1], ?_, ?_, hbuf, h5⟩
        · dsimp only
          split <;> omega
        · dsimp only
          omega

theorem foldl_FlowInv (w : Int) (hw : 1 ≤ w) (s : GoString) (hs : isASCII s) (st : FlowState)
    (h : FlowInv w st) :
    FlowInv w ((s.map (fun (b : Nat) => (b : Int))).foldl (flowStep w) st) := by
  induction s generalizing st with
  | nil => exact h
  | cons b t ih =>
    simp only [List.map_cons, List.foldl_cons]
    exact ih (fun c hc => hs c (List.mem_cons_of_mem _ hc)) _
      (flowStep_FlowInv w hw st b (hs b (List.mem_cons_self _ _)) h)

/-- On ASCII input at a width of at least 1 every line of `flow` is ASCII and at
most `w` bytes long. -/
theorem flow_ascii_lines (s : GoString) (w : Int) (hs : isASCII s) (hw : 1 ≤ w) :
    ∀ l ∈ flow s w, (l.length : Int) ≤ w ∧ isASCII l := by
  have hinit : FlowInv w FlowState.init := by
    refine ⟨rfl, le_refl _, ?_, ?_, ?_⟩
    · show ((0 : Nat) : Int) ≤ w
      omega
    · intro c hc
      cases hc
    · intro l hl
      cases hl
  have hinv := foldl_FlowInv w hw s hs FlowState.init hinit
  intro l hl
  unfold flow flowProcessor at hl
  rw [runes_ascii s hs] at hl
  obtain ⟨h1, _, h3, h4, h5⟩ := hinv
  rcases List.mem_append.mp hl with hl | hl
  · exact h5 l hl
  · simp only [List.mem_singleton] at hl
    subst hl
    exact ⟨by omega, h4⟩

theorem lineWidth_ascii_le (rw : Int → Nat) (hrw : ∀ r : Int, 0 ≤ r → r < 128 → rw r ≤ 1)
    (l : GoString) (hl : isASCII l) : lineWidth rw l ≤ l.length := by
  unfold lineWidth
  rw [runes_ascii l hl]
  induction l with
  | nil => simp
  | cons b t ih =>
    have hb128 : b < 128 := hl b (List.mem_cons_self _ _)
    have hb := hrw (b : Int) (Int.ofNat_nonneg b) (by exact_mod_cast hb128)
    have := ih (fun c hc => hl c (List.mem_cons_of_mem _ hc))
    simp only [List.map_cons, List.sum_cons, List.length_cons] at this ⊢
    omega

theorem flowStep_FlowClean (w : Int) (st : FlowState) (b : Nat) (hb : b < 128)
    (h : FlowClean st) : FlowClean (flowStep w st (b : Int)) := by
  obtain ⟨h1, h2⟩ := h
  unfold flowStep
  rw [encodeRune_ascii b hb]
  by_cases h13 : (b : Int) = 13
  · simp only [h13, if_true]
    exact ⟨h1, h2⟩
  · by_cases h10 : (b : Int) = 10
    · simp only [h10, if_true]
      refine ⟨fun c hc => (by cases hc), ?_⟩
      intro l hl
      rcases List.mem_append.mp hl with hl | hl
      · exact h2 l hl
      · simp only [List.mem_singleton] at hl
        subst hl
        exact h1
    · simp only [h13, h10, if_false]
      have hbuf : ∀ c ∈ st.buf ++ [b], c ≠ 10 ∧ c ≠ 13 := by
        intro c hc
        rcases List.mem_append.mp hc with hc | hc
        · exact h1 c hc
        · simp only [List.mem_singleton] at hc
          subst hc
          exact ⟨fun e => h10 (by rw [e]; rfl), fun e => h13 (by rw [e]; rfl)⟩
      by_cases hc : (st.col : Int) = w
      · simp only [hc, if_true]
        refine ⟨fun c hc => hbuf c (List.mem_of_mem_drop ((TrimSpace_slice _).subset hc)), ?_⟩
        intro l hl
        rcases List.mem_append.mp hl with hl | hl
        · exact h2 l hl
        · simp only [List.mem_singleton] at hl
          subst hl
          exact fun c hc => hbuf c (List.mem_of_mem_take ((TrimSpace_slice _).subset hc))
      · simp only [hc, if_false]
        exact ⟨hbuf, h2⟩

theorem foldl_FlowClean (w : Int) (s : GoString) (hs : isASCII s) (st : FlowState)
    (h : FlowClean st) :
    FlowClean ((s.map (fun (b : Nat) => (b : Int))).foldl (flowStep w) st) := by
  induction s generalizing st with
  | nil => exact h
  | cons b t ih =>
    simp only [List.map_cons, List.foldl_cons]
    exact ih (fun c hc => hs c (List.mem_cons_of_mem _ hc)) _
      (flowStep_FlowClean w st b (hs b (List.mem_cons_self _ _)) h)

/-- On ASCII input no line of `flow` holds a line feed or a carriage return. -/
theorem flow_ascii_clean (s : GoString) (w : Int) (hs : isASCII s) :
    ∀ l ∈ flow s w, ∀ b ∈ l, b ≠ 10 ∧ b ≠ 13 := by
  have hinit : FlowClean FlowState.init :=
    ⟨fun c hc => (by cases hc), fun l hl => (by cases hl)⟩
  obtain ⟨h1, h2⟩ := foldl_FlowClean w s hs FlowState.init hinit
  intro l hl
  unfold flow flowProcessor at hl
  rw [runes_ascii s hs] at hl
  rcases List.mem_append.mp hl with hl | hl
  · exact h2 l hl
  · simp only [List.mem_singleton] at hl
    subst hl
    exact h1

/-- A run of ASCII bytes without line feed or carriage return that fits in the
width is appended to the buffer as it is. -/
theorem foldl_flowStep_verbatim (w : Int) (l : GoString) (st : FlowState)
    (hl : isASCII l) (hc : ∀ b ∈ l, b ≠ 10 ∧ b ≠ 13) (hcol : st.col = st.buf.length)
    (hfit : ((st.buf.length + l.length : Nat) : Int) ≤ w) :
    ((l.map (fun (b : Nat) => (b : Int))).foldl (flowStep w) st).buf = st.buf ++ l ∧
    ((l.map (fun (b : Nat) => (b : Int))).foldl (flowStep w) st).out = st.out := by
  induction l generalizing st with
  | nil => simp
  | cons b t ih =>
    have hb : b < 128 := hl b (List.mem_cons_self _ _)
    have hb2 := hc b (List.mem_cons_self _ _)
    have h13 : ¬ ((b : Int) = 13) := by omega
    have h10 : ¬ ((b : Int) = 10) := by omega
    have hlen : (b :: t).length = t.length + 1 := List.length_cons _ _
    have hne : ¬ ((st.col : Int) = w) := by
      rw [hlen] at hfit
      omega
    have hstep : flowStep w st (b : Int) =
        ⟨st.buf ++ [b], st.col + 1, if IsSpace (b : Int) = true then st.col else st.lastSpace,
          st.out⟩ := by
      unfold flowStep
      rw [encodeRune_ascii b hb]
      simp only [h13, h10, hne, if_false]
    simp only [List.map_cons, List.foldl_cons, hstep]
    have hlen2 : (st.buf ++ [b]).length = st.buf.length + 1 := by simp
    have := ih ⟨st.buf ++ [b], st.col + 1,
        if IsSpace (b : Int) = true then st.col else st.lastSpace, st.out⟩
      (fun c hc2 => hl c (List.mem_cons_of_mem _ hc2))
      (fun c hc2 => hc c (List.mem_cons_of_mem _ hc2))
      (by
        show st.col + 1 = (st.buf ++ [b]).length
        rw [hlen2, hcol])
      (by
        show (((st.buf ++ [b]).length + t.length : Nat) : Int) ≤ w
        rw [hlen2]
        rw [hlen] at hfit
        have e : st.buf.length + 1 + t.length = st.buf.length + (t.length + 1) := by omega
        rw [e]
        exact hfit)
    refine ⟨?_, this.2⟩
    rw [this.1]
    simp

theorem flowStep_newline (w : Int) (st : FlowState) :
    flowStep w st 10 = ⟨[], 0, 0, st.out ++ [st.buf]⟩ := by
  simp [flowStep]

theorem joinLines_cons_cons (l l2 : GoString) (rest : List GoString) :
    joinLines (l :: l2 :: rest) = l ++ 10 :: joinLines (l2 :: rest) := rfl

/-- Flowing lines that are ASCII, hold no line break and fit in the width, joined
with "\n", gives the lines back. -/
theorem foldl_flowStep_joinLines (w : Int) (lines : List GoString) (hne : lines ≠ [])
    (hl : ∀ l ∈ lines, (l.length : Int) ≤ w ∧ isASCII l ∧ ∀ b ∈ l, b ≠ 10 ∧ b ≠ 13)
    (st : FlowState) (hbuf : st.buf = []) (hcol : st.col = 0) :
    (((joinLines lines).map (fun (b : Nat) => (b : Int))).foldl (flowStep w) st).out ++
      [(((joinLines lines).map (fun (b : Nat) => (b : Int))).foldl (flowStep w) st).buf] =
      st.out ++ lines := by
  induction lines generalizing st with
  | nil => exact absurd rfl hne
  | cons l rest ih =>
    obtain ⟨hl1, hl2, hl3⟩ := hl l (List.mem_cons_self _ _)
    have hv := foldl_flowStep_verbatim w l st hl2 hl3 (by rw [hcol, hbuf]; rfl)
      (by rw [hbuf]; simpa using hl1)
    cases rest with
    | nil =>
      simp only [joinLines]
      rw [hv.1, hv.2, hbuf]
      simp
    | cons l2 rest =>
      rw [joinLines_cons_cons, List.map_append, List.foldl_append, List.map_cons, List.foldl_cons]
      have hnl : flowStep w ((l.map (fun (b : Nat) => (b : Int))).foldl (flowStep w) st)
          ((10 : Nat) : Int) = ⟨[], 0, 0, st.out ++ [l]⟩ := by
        have := flowStep_newline w ((l.map (fun (b : Nat) => (b : Int))).foldl (flowStep w) st)
        rw [hv.1, hv.2, hbuf] at this
        simpa using this
      rw [hnl]
      rw [ih (by simp) (fun l3 h3 => hl l3 (List.mem_cons_of_mem _ h3)) _ rfl rfl]
      simp

theorem flow_eq (s : GoString) (w : Int) :
    flow s w = ((runes s).foldl (flowStep w) FlowState.init).out ++
      [((runes s).foldl (flowStep w) FlowState.init).buf] := rfl

/-- On ASCII input, where a character is a byte, flowing the joined lines again at
the same width gives the same lines. -/
theorem flow_idempotent_ascii (s : GoString) (w : Int) (hs : isASCII s) (hw : 1 ≤ w) :
    flow (joinLines (flow s w)) w = flow s w := by
  have hne : flow s w ≠ [] := by
    unfold flow flowProcessor
    simp
  have hlines : ∀ l ∈ flow s w, (l.length : Int) ≤ w ∧ isASCII l ∧ ∀ b ∈ l, b ≠ 10 ∧ b ≠ 13 :=
    fun l hl => ⟨(flow_ascii_lines s w hs hw l hl).1, (flow_ascii_lines s w hs hw l hl).2,
      flow_ascii_clean s w hs l hl⟩
  have hjoin : isASCII (joinLines (flow s w)) := by
    generalize flow s w = lines at hlines
    induction lines with
    | nil => intro c hc; cases hc
    | cons l rest ih =>
      cases rest with
      | nil => exact (hlines l (List.mem_cons_self _ _)).2.1
      | cons l2 rest =>
        rw [joinLines_cons_cons]
        intro c hc
        rcases List.mem_append.mp hc with hc | hc
        · exact (hlines l (List.mem_cons_self _ _)).2.1 c hc
        · rcases List.mem_cons.mp hc with hc | hc
          · omega
          · exact ih (fun l3 h3 => hlines l3 (List.mem_cons_of_mem _ h3)) c hc
  have := foldl_flowStep_joinLines w (flow s w) hne hlines FlowState.init rfl rfl
  rw [flow_eq (joinLines (flow s w)), runes_ascii _ hjoin, this]
  rfl

/-! ## The flow claims -/

/-- C5 as stated fails for wide glyphs: at width 3 the text "世 界" (two CJK
ideographs of two columns each around a space) is kept on one line, because the
loop counts three characters; the line takes five columns and is not a single
word. -/
theorem flow_width_wide_glyphs :
    flow [0xE4, 0xB8, 0x96, 0x20, 0xE7, 0x95, 0x8C] 3 =
      [[0xE4, 0xB8, 0x96, 0x20, 0xE7, 0x95, 0x8C]] ∧
    lineWidth RuneWidth [0xE4, 0xB8, 0x96, 0x20, 0xE7, 0x95, 0x8C] = 5 ∧
    isSingleWord [0xE4, 0xB8, 0x96, 0x20, 0xE7, 0x95, 0x8C] = false := by
  decide

/-- C5 (amended): for every ASCII input string and every width of at least 1,
every line produced by `flow` has a display column count of at most the width,
for a width function that gives an ASCII character at most one column. -/
theorem flow_width_bound_ascii (rw : Int → Nat)
    (hrw : ∀ r : Int, 0 ≤ r → r < 128 → rw r ≤ 1) (s : GoString) (w : Int)
    (hs : isASCII s) (hw : 1 ≤ w) : ∀ l ∈ flow s w, (lineWidth rw l : Int) ≤ w := by
  intro l hl
  obtain ⟨h1, h2⟩ := flow_ascii_lines s w hs hw l hl
  have := lineWidth_ascii_le rw hrw l h2
  omega

/-- Witness of C5 (amended): the text "ab cd ef" at width 5 with the model of
`runewidth.RuneWidth`; its first line is "ab cd". -/
theorem flow_width_bound_ascii_witness :
    [97, 98, 32, 99, 100] ∈ flow [97, 98, 32, 99, 100, 32, 101, 102] 5 ∧
      (lineWidth RuneWidth [97, 98, 32, 99, 100] : Int) ≤ 5 :=
  ⟨by decide,
    flow_width_bound_ascii RuneWidth
      (by
        intro r h0 h1
        unfold RuneWidth
        split_ifs <;> omega)
      [97, 98, 32, 99, 100, 32, 101, 102] 5 (by unfold isASCII; decide) (by decide)
      [97, 98, 32, 99, 100] (by decide)⟩

/-- C6 fails on the code for multi-byte text: at width 2 the text "世界世" is cut
after two bytes, inside the first character, because `end` counts characters and
the slice counts bytes; flowing the joined lines again decodes the broken bytes as
U+FFFD and gives three other lines. -/
theorem flow_reflow_multibyte :
    flow [0xE4, 0xB8, 0x96, 0xE7, 0x95, 0x8C, 0xE4, 0xB8, 0x96] 2 =
      [[0xE4, 0xB8], [0x96, 0xE7, 0x95, 0x8C, 0xE4, 0xB8, 0x96]] ∧
    joinLines (flow [0xE4, 0xB8, 0x96, 0xE7, 0x95, 0x8C, 0xE4, 0xB8, 0x96] 2) =
      [0xE4, 0xB8, 0x0A, 0x96, 0xE7, 0x95, 0x8C, 0xE4, 0xB8, 0x96] ∧
    flow (joinLines (flow [0xE4, 0xB8, 0x96, 0xE7, 0x95, 0x8C, 0xE4, 0xB8, 0x96] 2)) 2 =
      [[0xEF, 0xBF, 0xBD, 0xEF, 0xBF, 0xBD], [0xEF, 0xBF],
        [0xBD, 0xE7, 0x95, 0x8C, 0xE4, 0xB8, 0x96]] := by
  decide

/-! ## The state of the debouncer and the decimal key-space -/

theorem getElem?_some_lt (keys : List GoString) (k : Nat) (c : GoString)
    (h : keys[k]? = some c) : k < keys.length := by
  by_contra hlt
  rw [List.getElem?_eq_none (by omega)] at h
  cases h

theorem Debouncer.step_Consistent (keys : List GoString) (st : Debouncer) (ev : DEvent)
    (h : Debouncer.Consistent keys st) :
    Debouncer.Consistent keys (Debouncer.step keys st ev).1 ∧
      ∀ c ∈ (Debouncer.step keys st ev).2, Choice.InKeys keys c := by
  cases ev with
  | tick =>
    rcases h with ⟨hb, hi⟩ | ⟨hb, k, hk, hlt, hget⟩
    · have hn : ¬ (st.index > -1) := by omega
      simp only [Debouncer.step, hn, if_false]
      exact ⟨Or.inl ⟨rfl, hi⟩, fun c hc => (by cases hc)⟩
    · have hp : st.index > -1 := by omega
      simp only [Debouncer.step, hp, if_true]
      refine ⟨Or.inl ⟨rfl, rfl⟩, ?_⟩
      intro c hc
      simp only [List.mem_singleton] at hc
      subst hc
      refine ⟨k, hk, hlt, ?_⟩
      show keys[k]? = some (optionAt keys st.index)
      rw [hk, optionAt_of_getElem? keys k _ hget]
      exact hget
  | rune r =>
    have hne : st.buffer ++ encodeRune r ≠ [] := by
      intro h0
      have := congrArg List.length h0
      have := encodeRune_length_pos r
      simp only [List.length_append, List.length_nil] at *
      omega
    rcases choiceIndex_fst_cases keys (st.buffer ++ encodeRune r) with h1 | ⟨k, hk, h1⟩
    · simp only [Debouncer.step, h1]
      exact ⟨Or.inl ⟨rfl, rfl⟩, fun c hc => (by cases hc)⟩
    · have hlt := getElem?_some_lt keys k _ hk
      have hneg : ¬ ((k : Int) < 0) := by omega
      by_cases hmp : (choiceIndex keys (st.buffer ++ encodeRune r)).2 = true
      · simp only [Debouncer.step, h1, hneg, hmp, if_true, if_false]
        exact ⟨Or.inr ⟨hne, k, rfl, hlt, hk⟩, fun c hc => (by cases hc)⟩
      · simp only [Debouncer.step, h1, hneg, hmp, if_false]
        refine ⟨Or.inl ⟨rfl, rfl⟩, ?_⟩
        intro c hc
        simp only [Bool.false_eq_true, if_false, List.mem_singleton] at hc
        subst hc
        refine ⟨k, rfl, hlt, ?_⟩
        show keys[k]? = some (optionAt keys (k : Int))
        rw [optionAt_of_getElem? keys k _ hk]
        exact hk

theorem Debouncer.run_Consistent (keys : List GoString) (st : Debouncer) (evs : List DEvent)
    (h : Debouncer.Consistent keys st) :
    Debouncer.Consistent keys (Debouncer.run keys st evs).1 ∧
      ∀ c ∈ (Debouncer.run keys st evs).2, Choice.InKeys keys c := by
  induction evs generalizing st with
  | nil => exact ⟨h, fun c hc => (by cases hc)⟩
  | cons ev evs ih =>
    obtain ⟨h1, h2⟩ := Debouncer.step_Consistent keys st ev h
    obtain ⟨h3, h4⟩ := ih (Debouncer.step keys st ev).1 h1
    simp only [Debouncer.run]
    refine ⟨h3, ?_⟩
    intro c hc
    rcases List.mem_append.mp hc with hc | hc
    · exact h2 c hc
    · exact h4 c hc

theorem Debouncer.init_Consistent (keys : List GoString) :
    Debouncer.Consistent keys Debouncer.init := Or.inl ⟨rfl, rfl⟩

/-- C19: in every state the loop of `NewChoice` reaches from its initial state by
any sequence of rune and timer events, over any key list, the buffer is non-empty
exactly when a match is pending (`index > -1`), a pending index is in
`[0, len(keys))` with the buffer equal to `keys[index]`, and every choice sent has
an index in range with `Value == keys[Index]`. -/
theorem debouncer_state_invariant (keys : List GoString) (evs : List DEvent) :
    ((Debouncer.run keys Debouncer.init evs).1.buffer ≠ [] ↔
      (Debouncer.run keys Debouncer.init evs).1.index > -1) ∧
    ((Debouncer.run keys Debouncer.init evs).1.index > -1 →
      0 ≤ (Debouncer.run keys Debouncer.init evs).1.index ∧
      (Debouncer.run keys Debouncer.init evs).1.index < (keys.length : Int) ∧
      keys[(Debouncer.run keys Debouncer.init evs).1.index.toNat]? =
        some (Debouncer.run keys Debouncer.init evs).1.buffer) ∧
    (∀ c ∈ (Debouncer.run keys Debouncer.init evs).2,
      0 ≤ c.Index ∧ c.Index < (keys.length : Int) ∧ keys[c.Index.toNat]? = some c.Value) := by
  obtain ⟨h1, h2⟩ := Debouncer.run_Consistent keys Debouncer.init evs
    (Debouncer.init_Consistent keys)
  refine ⟨?_, ?_, ?_⟩
  · rcases h1 with ⟨hb, hi⟩ | ⟨hb, k, hk, _, _⟩
    · constructor
      · intro h
        exact absurd hb h
      · intro h
        omega
    · exact ⟨fun _ => by omega, fun _ => hb⟩
  · intro hp
    rcases h1 with ⟨hb, hi⟩ | ⟨hb, k, hk, hlt, hget⟩
    · omega
    · rw [hk]
      exact ⟨by omega, by omega, by simpa using hget⟩
  · intro c hc
    obtain ⟨k, hk, hlt, hget⟩ := h2 c hc
    rw [hk]
    exact ⟨by omega, by omega, by simpa using hget⟩

theorem ChoiceOptionIndex_length (options : List GoString) :
    (ChoiceOptionIndex options).length = options.length := by
  simp [ChoiceOptionIndex]

/-- A non-empty proper beginning of the decimal form of `n` is the decimal form of
a smaller number. -/
theorem FormatInt_proper_beginning (n : Nat) (s : GoString) (hs : s ≠ [])
    (hpre : s <+: FormatInt n) (hne : FormatInt n ≠ s) : ∃ m, m < n ∧ s = FormatInt m := by
  induction n using Nat.strong_induction_on with
  | _ n ih =>
    by_cases h : n < 10
    · rw [FormatInt_lt n h] at hpre hne
      rcases List.prefix_cons_iff.mp hpre with h0 | ⟨t, ht, htp⟩
      · exact absurd h0 hs
      · have : t = [] := List.prefix_nil.mp htp
        subst this
        exact absurd ht.symm hne
    · have h10 : 10 ≤ n := by omega
      rw [FormatInt_ge n h10] at hpre hne
      rcases List.prefix_concat_iff.mp hpre with h0 | h0
      · exact absurd h0.symm hne
      · by_cases he : FormatInt (n / 10) = s
        · exact ⟨n / 10, by omega, he.symm⟩
        · obtain ⟨m, hm, hms⟩ := ih (n / 10) (by omega) h0 he
          exact ⟨m, by omega, hms⟩

/-- C20: the decimal key-space is closed under non-empty beginnings: if a key of
`ChoiceOptionIndex` has the non-empty string `s` as a proper prefix, then `s` is a
key; so `choiceIndex` never returns `(-1, true)` for a non-empty buffer, and the
branch of `NewChoice` that discards a buffer without exact match (`index < 0`)
discards no buffer that is a prefix of a key. -/
theorem decimal_keys_closed (options : List GoString) (s : GoString) (hs : s ≠ []) :
    ((∃ c ∈ ChoiceOptionIndex options, c ≠ s ∧ s <+: c) → s ∈ ChoiceOptionIndex options) ∧
    ¬ ((choiceIndex (ChoiceOptionIndex options) s).1 = -1 ∧
      (choiceIndex (ChoiceOptionIndex options) s).2 = true) ∧
    ((choiceIndex (ChoiceOptionIndex options) s).1 < 0 →
      ∀ c ∈ ChoiceOptionIndex options, ¬ (s <+: c)) := by
  have hclosed : (∃ c ∈ ChoiceOptionIndex options, c ≠ s ∧ s <+: c) →
      s ∈ ChoiceOptionIndex options := by
    rintro ⟨c, hc, hne, hpre⟩
    obtain ⟨j, hj⟩ := List.mem_iff_getElem?.mp hc
    obtain ⟨hjl, hcj⟩ := ChoiceOptionIndex_getElem?_some options j c hj
    subst hcj
    obtain ⟨m, hm, hms⟩ := FormatInt_proper_beginning j s hs hpre hne
    rw [hms]
    exact List.mem_iff_getElem?.mpr ⟨m, ChoiceOptionIndex_getElem? options m (by omega)⟩
  have hidx : s ∈ ChoiceOptionIndex options →
      0 ≤ (choiceIndex (ChoiceOptionIndex options) s).1 := by
    intro hmem
    obtain ⟨j, hj⟩ := List.mem_iff_getElem?.mp hmem
    obtain ⟨hjl, hcj⟩ := ChoiceOptionIndex_getElem?_some options j s hj
    rw [hcj, choiceIndex_key_fst options j hjl]
    omega
  refine ⟨hclosed, ?_, ?_⟩
  · rintro ⟨h1, h2⟩
    have := hidx (hclosed ((choiceIndex_snd_iff _ _).mp h2))
    omega
  · intro hneg c hc hpre
    by_cases hcs : c = s
    · subst hcs
      have := hidx hc
      omega
    · have := hidx (hclosed ⟨c, hc, hcs, hpre⟩)
      omega

/-- Witness of C20: twelve options and the buffer "1", a proper prefix of the keys
"10" and "11". -/
theorem decimal_keys_closed_witness :
    [49] ∈ ChoiceOptionIndex (List.replicate 12 []) :=
  (decimal_keys_closed (List.replicate 12 []) [49] (by decide)).1 (by decide)

/-! ## The selection model: cancel detection and the range of `ActiveIndex` -/

theorem cancelIndexFrom_none (l : List GoString) (i : Nat)
    (h : ∀ c ∈ l, c ≠ strCancel ∧ c ≠ strExit) : cancelIndexFrom l i = -1 := by
  induction l generalizing i with
  | nil => rfl
  | cons c cs ih =>
    have hc := h c (List.mem_cons_self _ _)
    simp only [cancelIndexFrom, hc.1, hc.2, or_self, if_false]
    exact ih _ (fun d hd => h d (List.mem_cons_of_mem _ hd))

theorem cancelIndexFrom_first (l : List GoString) (i k : Nat) (c : GoString)
    (hk : l[k]? = some c) (hc : c = strCancel ∨ c = strExit)
    (hmin : ∀ j d, j < k → l[j]? = some d → d ≠ strCancel ∧ d ≠ strExit) :
    cancelIndexFrom l i = ((i + k : Nat) : Int) := by
  induction l generalizing i k with
  | nil => simp at hk
  | cons a as ih =>
    cases k with
    | zero =>
      have ha : a = c := by simpa using hk
      subst ha
      simp [cancelIndexFrom, hc]
    | succ k =>
      have ha := hmin 0 a (Nat.succ_pos _) (by simp)
      simp only [cancelIndexFrom, ha.1, ha.2, or_self, if_false]
      rw [ih (i + 1) k (by simpa using hk)
        (fun j d hj hd => hmin (j + 1) d (by omega) (by simpa using hd))]
      congr 1
      omega

/-- C12: `NewOptions` sets `CancelIndex` to the smallest index whose option is
exactly "Cancel" or exactly "Exit", and to -1 when no option is either string. -/
theorem cancel_detection (opts : List GoString) :
    ((∀ c ∈ opts, c ≠ strCancel ∧ c ≠ strExit) → (NewOptions opts).CancelIndex = -1) ∧
    (∀ (k : Nat) (c : GoString), opts[k]? = some c → (c = strCancel ∨ c = strExit) →
      (∀ j d, j < k → opts[j]? = some d → d ≠ strCancel ∧ d ≠ strExit) →
      (NewOptions opts).CancelIndex = (k : Int)) := by
  constructor
  · intro h
    exact cancelIndexFrom_none opts 0 h
  · intro k c hk hc hmin
    show cancelIndexFrom opts 0 = (k : Int)
    rw [cancelIndexFrom_first opts 0 k c hk hc hmin]
    simp

/-- Witness of C12: the options "A", "B", "Cancel" give 2, the options "A", "B"
give -1. -/
theorem cancel_detection_witness :
    (NewOptions [[65], [66], strCancel]).CancelIndex = 2 ∧
    (NewOptions [[65], [66]]).CancelIndex = -1 :=
  ⟨(cancel_detection [[65], [66], strCancel]).2 2 strCancel (by decide) (Or.inl rfl)
      (by
        intro j d hj hd
        match j, hj, hd with
        | 0, _, hd => cases hd; decide
        | 1, _, hd => cases hd; decide),
    (cancel_detection [[65], [66]]).1 (by decide)⟩

theorem Options.Up_InRange (o : Urlscan.Options) (h : o.InRange) : o.Up.InRange := by
  obtain ⟨h0, h1⟩ := h
  unfold Options.InRange
  rw [Options.Up_Options]
  unfold Options.Up
  split
  · dsimp only
    omega
  · dsimp only
    omega

theorem Options.Down_InRange (o : Urlscan.Options) (h : o.InRange) : o.Down.InRange := by
  obtain ⟨h0, h1⟩ := h
  unfold Options.InRange
  rw [Options.Down_Options]
  unfold Options.Down
  split
  · dsimp only
    omega
  · dsimp only
    omega

theorem Options.poll_InRange (o : Urlscan.Options) (ev : Event) (h : o.InRange) :
    o.poll ev ≠ .panicked ∧
      ∀ o2 sent, o.poll ev = .running o2 sent → o2.InRange ∧ o2.Options = o.Options := by
  have hU := Options.Up_InRange o h
  have hD := Options.Down_InRange o h
  have hUo := Options.Up_Options o
  have hDo := Options.Down_Options o
  cases ev with
  | EventResize =>
    refine ⟨by simp [Options.poll], ?_⟩
    intro o2 sent hp
    simp only [Options.poll, Poll.running.injEq] at hp
    rw [← hp.1]
    exact ⟨h, rfl⟩
  | EventOther =>
    refine ⟨by simp [Options.poll], ?_⟩
    intro o2 sent hp
    simp only [Options.poll, Poll.running.injEq] at hp
    rw [← hp.1]
    exact ⟨h, rfl⟩
  | EventKey key r =>
    cases key with
    | KeyBacktab =>
      refine ⟨by simp [Options.poll], ?_⟩
      intro o2 sent hp
      simp only [Options.poll, Poll.running.injEq] at hp
      rw [← hp.1]
      exact ⟨hU, hUo⟩
    | KeyUp =>
      refine ⟨by simp [Options.poll], ?_⟩
      intro o2 sent hp
      simp only [Options.poll, Poll.running.injEq] at hp
      rw [← hp.1]
      exact ⟨hU, hUo⟩
    | KeyTab =>
      refine ⟨by simp [Options.poll], ?_⟩
      intro o2 sent hp
      simp only [Options.poll, Poll.running.injEq] at hp
      rw [← hp.1]
      exact ⟨hD, hDo⟩
    | KeyDown =>
      refine ⟨by simp [Options.poll], ?_⟩
      intro o2 sent hp
      simp only [Options.poll, Poll.running.injEq] at hp
      rw [← hp.1]
      exact ⟨hD, hDo⟩
    | KeyOther =>
      refine ⟨by simp [Options.poll], ?_⟩
      intro o2 sent hp
      simp only [Options.poll, Poll.running.injEq] at hp
      rw [← hp.1]
      exact ⟨h, rfl⟩
    | KeyEscape =>
      refine ⟨by simp [Options.poll], ?_⟩
      intro o2 sent hp
      simp [Options.poll] at hp
    | KeyEnter =>
      have hr : 0 ≤ o.ActiveIndex ∧ o.ActiveIndex < (o.Options.length : Int) := h
      refine ⟨by simp [Options.poll, hr], ?_⟩
      intro o2 sent hp
      simp [Options.poll, hr] at hp
    | KeyRune =>
      by_cases hq : r = 113
      · refine ⟨by simp [Options.poll, hq], ?_⟩
        intro o2 sent hp
        simp [Options.poll, hq] at hp
      · refine ⟨by simp [Options.poll, hq], ?_⟩
        intro o2 sent hp
        simp only [Options.poll, hq, if_false, Poll.running.injEq] at hp
        rw [← hp.1]
        exact ⟨h, rfl⟩

theorem Options.UpUpdate_UpTest (o : Urlscan.Options) : o.UpUpdate o.UpTest = o.Up := by
  unfold Options.UpUpdate Options.UpTest Options.Up
  by_cases h : o.ActiveIndex = 0 <;> simp [h]

theorem Options.DownUpdate_DownTest (o : Urlscan.Options) : o.DownUpdate o.DownTest = o.Down := by
  unfold Options.DownUpdate Options.DownTest Options.Down
  by_cases h : o.ActiveIndex = (o.Options.length : Int) - 1 <;> simp [h]

/-- Every choice the debouncer sends over the key-space of an option list has its
index in the range of the list. -/
theorem Debouncer.sent_index_lt (opts : List GoString) (evs : List DEvent) (c : Choice)
    (hc : c ∈ (Debouncer.run (ChoiceOptionIndex opts) Debouncer.init evs).2) :
    0 ≤ c.Index ∧ c.Index < (opts.length : Int) := by
  obtain ⟨k, hk, hlt, _⟩ := (Debouncer.run_Consistent (ChoiceOptionIndex opts) Debouncer.init evs
    (Debouncer.init_Consistent _)).2 c hc
  rw [ChoiceOptionIndex_length] at hlt
  omega

/-- A session in which no assignment lands inside an iteration of the loop keeps
`ActiveIndex` in range and never panics: what breaks the range is the
interleaving alone. -/
theorem Options.FocusSteps_unraced (steps : List Step) (o : Urlscan.Options) (h : o.InRange)
    (hsel : ∀ c, Step.selection c ∈ steps →
      0 ≤ c.Index ∧ c.Index < (o.Options.length : Int))
    (hun : ∀ ev c, Step.raced ev c ∉ steps) :
    o.FocusSteps steps ≠ .panicked := by
  induction steps generalizing o with
  | nil => simp [Options.FocusSteps]
  | cons st rest ih =>
    have hun2 : ∀ ev c, Step.raced ev c ∉ rest :=
      fun ev c hm => hun ev c (List.mem_cons_of_mem _ hm)
    cases st with
    | raced ev c => exact absurd (List.mem_cons_self _ _) (hun ev c)
    | selection c =>
      simp only [Options.FocusSteps]
      exact ih _ (hsel c (List.mem_cons_self _ _))
        (fun d hd => hsel d (List.mem_cons_of_mem _ hd)) hun2
    | screen ev =>
      obtain ⟨hnp, hrun⟩ := Options.poll_InRange o ev h
      simp only [Options.FocusSteps]
      cases hp : o.poll ev with
      | panicked => exact absurd hp hnp
      | returned s => simp
      | running o2 sent =>
        obtain ⟨h2, ho2⟩ := hrun o2 sent hp
        exact ih o2 h2 (fun d hd => by
          rw [ho2]
          exact hsel d (List.mem_cons_of_mem _ hd)) hun2

/-- C11 fails on the code: the goroutine of `Focus` assigns `ActiveIndex` with no
lock while `Up` and `Down` test the field and then update it. With the options
"a", "b": after Down the index is 1; the rune '0' makes the debouncer send
`Choice{Index: 0}`; when its assignment lands between the test and the decrement of
`Up`, the index becomes -1, and Enter reaches `Options[ActiveIndex]` out of range.
In `Down` the same interleaving with `Choice{Index: 1}` gives the index 2. -/
theorem active_index_race :
    Debouncer.run (ChoiceOptionIndex [[97], [98]]) Debouncer.init [.rune 48] =
      (Debouncer.init, [⟨0, [48]⟩]) ∧
    ((NewOptions [[97], [98]]).Down.UpRaced ⟨0, [48]⟩).ActiveIndex = -1 ∧
    (NewOptions [[97], [98]]).FocusSteps
      [.screen (.EventKey .KeyDown 0), .screen (.EventKey .KeyRune 48),
        .raced (.EventKey .KeyUp 0) ⟨0, [48]⟩, .screen (.EventKey .KeyEnter 0)] = .panicked ∧
    Debouncer.run (ChoiceOptionIndex [[97], [98]]) Debouncer.init [.rune 49] =
      (Debouncer.init, [⟨1, [49]⟩]) ∧
    ((NewOptions [[97], [98]]).DownRaced ⟨1, [49]⟩).ActiveIndex = 2 ∧
    (NewOptions [[97], [98]]).FocusSteps
      [.screen (.EventKey .KeyRune 49), .raced (.EventKey .KeyDown 0) ⟨1, [49]⟩,
        .screen (.EventKey .KeyEnter 0)] = .panicked := by
  decide

/-! ## The flow engine on ASCII text: width, visible characters, words -/

/-- C17: for every ASCII input and every width of at least 1, every line of
`flow` has at most `w` characters (counted as runes, which are the bytes of an
ASCII line), also when a single word is longer than `w`. -/
theorem flow_ascii_width (s : GoString) (w : Int) (hs : isASCII s) (hw : 1 ≤ w) :
    ∀ l ∈ flow s w, ((runes l).length : Int) ≤ w ∧ (l.length : Int) ≤ w := by
  intro l hl
  obtain ⟨h1, h2⟩ := flow_ascii_lines s w hs hw l hl
  rw [runes_ascii l h2, List.length_map]
  exact ⟨h1, h1⟩

/-- Witness of C17: the word "abcdefg" at width 3 is cut into "abc", "def", "g". -/
theorem flow_ascii_width_witness :
    flow [97, 98, 99, 100, 101, 102, 103] 3 = [[97, 98, 99], [100, 101, 102], [103]] ∧
    ((runes [97, 98, 99]).length : Int) ≤ 3 ∧ (([97, 98, 99] : GoString).length : Int) ≤ 3 :=
  ⟨by decide,
    flow_ascii_width [97, 98, 99, 100, 101, 102, 103] 3 (by unfold isASCII; decide) (by decide)
      [97, 98, 99] (by decide)⟩

theorem visible_append (a b : GoString) : visible (a ++ b) = visible a ++ visible b := by
  simp [visible]

theorem trimLeft_visible (fuel : Nat) (s : GoString) (hs : isASCII s) :
    visible (trimLeft fuel s) = visible s := by
  induction fuel generalizing s with
  | zero => rfl
  | succ fuel ih =>
    cases s with
    | nil => rfl
    | cons b t =>
      have hb : b < 128 := hs b (List.mem_cons_self _ _)
      have ht : isASCII t := fun c hc => hs c (List.mem_cons_of_mem _ hc)
      simp only [trimLeft, DecodeRuneInString_ascii b t hb, List.drop_succ_cons, List.drop_zero]
      by_cases hsp : IsSpace (b : Int) = true
      · rw [if_pos hsp, ih t ht]
        simp [visible, hsp]
      · rw [if_neg hsp]

theorem DecodeLastRuneInString_ascii (l : GoString) (b : Nat) (hb : b < 128) :
    DecodeLastRuneInString (l ++ [b]) = ((b : Int), 1) := by
  simp [DecodeLastRuneInString, hb]

theorem trimRight_visible (fuel : Nat) (s : GoString) (hs : isASCII s) :
    visible (trimRight fuel s) = visible s := by
  induction fuel generalizing s with
  | zero => rfl
  | succ fuel ih =>
    rcases List.eq_nil_or_concat s with h | ⟨l, b, h⟩
    · subst h
      simp [trimRight]
    · rw [List.concat_eq_append] at h
      subst h
      have hb : b < 128 := hs b (by simp)
      have hl : isASCII l := fun c hc => hs c (by simp [hc])
      have hne : l ++ [b] ≠ [] := by simp
      simp only [trimRight, hne, if_false, DecodeLastRuneInString_ascii l b hb]
      by_cases hsp : IsSpace (b : Int) = true
      · rw [if_pos hsp]
        have htake : List.take ((l ++ [b]).length - 1) (l ++ [b]) = l := by
          simp
        rw [htake, ih l hl, visible_append]
        simp [visible, hsp]
      · rw [if_neg hsp]

/-- On an ASCII string `strings.TrimSpace` removes white space only. -/
theorem TrimSpace_visible (s : GoString) (hs : isASCII s) : visible (TrimSpace s) = visible s := by
  unfold TrimSpace
  have h1 : isASCII (trimLeft s.length s) :=
    fun b hb => hs b ((trimLeft_slice _ _).subset hb)
  rw [trimRight_visible _ _ h1, trimLeft_visible _ _ hs]

theorem flowStep_visible (w : Int) (st : FlowState) (b : Nat) (hb : b < 128)
    (h : isASCII st.buf) :
    isASCII (flowStep w st (b : Int)).buf ∧
      visible ((flowStep w st (b : Int)).out.flatten ++ (flowStep w st (b : Int)).buf) =
        visible (st.out.flatten ++ st.buf) ++ visible [b] := by
  unfold flowStep
  rw [encodeRune_ascii b hb]
  by_cases h13 : (b : Int) = 13
  · have hb13 : b = 13 := by omega
    simp only [h13, if_true]
    refine ⟨h, ?_⟩
    subst hb13
    simp [visible, IsSpace]
  · by_cases h10 : (b : Int) = 10
    · have hb10 : b = 10 := by omega
      simp only [h10, if_true]
      refine ⟨fun c hc => (by cases hc), ?_⟩
      subst hb10
      simp [visible, IsSpace]
    · simp only [h13, h10, if_false]
      have hbuf : isASCII (st.buf ++ [b]) := by
        intro c hc
        rcases List.mem_append.mp hc with hc | hc
        · exact h c hc
        · simp only [List.mem_singleton] at hc
          omega
      by_cases hc : (st.col : Int) = w
      · simp only [hc, if_true]
        generalize (if (if IsSpace (b : Int) = true then st.col else st.lastSpace) = 0
          then st.col else (if IsSpace (b : Int) = true then st.col else st.lastSpace)) = e
        have htake : isASCII (List.take e (st.buf ++ [b])) :=
          fun c hc => hbuf c (List.mem_of_mem_take hc)
        have hdrop : isASCII (List.drop e (st.buf ++ [b])) :=
          fun c hc => hbuf c (List.mem_of_mem_drop hc)
        refine ⟨TrimSpace_ascii _ hdrop, ?_⟩
        rw [List.flatten_append, List.append_assoc, visible_append, visible_append]
        simp only [List.flatten_cons, List.flatten_nil, List.append_nil]
        rw [TrimSpace_visible _ htake, visible_append, TrimSpace_visible _ hdrop,
          ← visible_append (List.take e (st.buf ++ [b])), List.take_append_drop]
        simp only [visible_append, List.append_assoc]
      · simp only [hc, if_false]
        refine ⟨hbuf, ?_⟩
        rw [← List.append_assoc, visible_append]

theorem foldl_flowStep_visible (w : Int) (s : GoString) (hs : isASCII s) (st : FlowState)
    (h : isASCII st.buf) :
    visible (((s.map (fun (b : Nat) => (b : Int))).foldl (flowStep w) st).out.flatten ++
        ((s.map (fun (b : Nat) => (b : Int))).foldl (flowStep w) st).buf) =
      visible (st.out.flatten ++ st.buf) ++ visible s := by
  induction s generalizing st with
  | nil => simp [visible]
  | cons b t ih =>
    have hb : b < 128 := hs b (List.mem_cons_self _ _)
    obtain ⟨h1, h2⟩ := flowStep_visible w st b hb h
    simp only [List.map_cons, List.foldl_cons]
    rw [ih (fun c hc => hs c (List.mem_cons_of_mem _ hc)) _ h1, h2, List.append_assoc,
      ← visible_append]
    rfl

/-- C18: for every ASCII input and every width, the visible (non-white-space)
characters of the lines of `flow`, concatenated in order, are the visible
characters of the input: nothing is dropped, duplicated or reordered. -/
theorem flow_keeps_visible (s : GoString) (w : Int) (hs : isASCII s) :
    visible (flow s w).flatten = visible s := by
  have := foldl_flowStep_visible w s hs FlowState.init (fun c hc => (by cases hc))
  rw [flow_eq, runes_ascii s hs, List.flatten_append]
  simpa [FlowState.init, visible] using this

/-- Witness of C18: the text "ab cd ef" at width 5. -/
theorem flow_keeps_visible_witness :
    visible (flow [97, 98, 32, 99, 100, 32, 101, 102] 5).flatten =
      visible [97, 98, 32, 99, 100, 32, 101, 102] :=
  flow_keeps_visible [97, 98, 32, 99, 100, 32, 101, 102] 5 (by unfold isASCII; decide)

/-- C14 fails on the code: at width 5 the text " abcde" has the single word
"abcde" of 5 characters, and `flow` cuts it into "abcd" and "e". The space at
column 0 sets `lastSpace = 0`, which the loop reads as "no white space seen". -/
theorem flow_splits_short_word :
    words [32, 97, 98, 99, 100, 101] = [[97, 98, 99, 100, 101]] ∧
    flow [32, 97, 98, 99, 100, 101] 5 = [[97, 98, 99, 100], [101]] ∧
    (∀ l ∈ flow [32, 97, 98, 99, 100, 101] 5, ¬ ([97, 98, 99, 100, 101] <:+: l)) := by
  decide

/-! ## The glyph renderer -/

theorem foldl_drawRune (rw : Int → Nat) (cs : List Int) (st : DrawState) :
    (cs.foldl (drawRune rw) st).cells = st.cells ++ placeRunes rw st.y st.x cs ∧
    (cs.foldl (drawRune rw) st).x = advanceRunes rw st.x cs ∧
    (cs.foldl (drawRune rw) st).y = st.y := by
  induction cs generalizing st with
  | nil => simp [placeRunes, advanceRunes]
  | cons c cs ih =>
    obtain ⟨h1, h2, h3⟩ := ih (drawRune rw st c)
    simp only [List.foldl_cons]
    rw [h1, h2, h3]
    by_cases hz : rw c = 0
    · simp [drawRune, placeRunes, advanceRunes, hz]
    · have hz2 : ¬ ((rw c : Int) = 0) := by omega
      simp [drawRune, placeRunes, advanceRunes, hz, hz2]

/-- C15 as stated fails: for the line "e" followed by U+0301 (a combining accent
of width 0), `Text.Draw` puts the accent in a cell of its own at column 1, on a
substituted space, and ends at column 2; the placement of the claim attaches it to
the cell of "e" and ends at column 1. -/
theorem draw_combining_mark_own_cell :
    Text.Draw RuneWidth ⟨0, 0, 0, [0x65, 0xCC, 0x81]⟩ 80 =
      ([⟨0, 0, 0x65, []⟩, ⟨1, 0, 32, [0x301]⟩], 2, 0) ∧
    placeAttached RuneWidth 0 [] 0 (runes [0x65, 0xCC, 0x81]) = ([⟨0, 0, 0x65, [0x301]⟩], 1) := by
  decide

/-- C15 (amended): in `Text.Draw`, every character of a wrapped line is placed in a
cell of its own at the current `x`, in the row of the line: a character of display
width 0 is drawn as a space that carries the character as combining mark and
advances `x` by 1, whether or not a base character precedes it on the line; every
other character is drawn as itself and advances `x` by its display width. -/
theorem draw_places_every_rune (rw : Int → Nat) (t : Urlscan.Text) (st : DrawState)
    (lineIndex : Nat) (line : GoString) :
    (drawLine rw t st lineIndex line).cells =
      st.cells ++ placeRunes rw (t.Y + (lineIndex : Int)) t.X (runes line) ∧
    (drawLine rw t st lineIndex line).x = advanceRunes rw t.X (runes line) ∧
    (drawLine rw t st lineIndex line).cells.length = st.cells.length + (runes line).length ∧
    (∀ c, drawRune rw st c =
      if rw c = 0 then
        { cells := st.cells ++ [⟨st.x, st.y, 32, [c]⟩], x := st.x + 1, y := st.y,
          requiredMaxWidth :=
            if st.x + 1 > st.requiredMaxWidth then st.x + 1 else st.requiredMaxWidth }
      else
        { cells := st.cells ++ [⟨st.x, st.y, c, []⟩], x := st.x + (rw c : Int), y := st.y,
          requiredMaxWidth :=
            if st.x + (rw c : Int) > st.requiredMaxWidth then st.x + (rw c : Int)
            else st.requiredMaxWidth }) := by
  have h := foldl_drawRune rw (runes line) { st with y := t.Y + (lineIndex : Int), x := t.X }
  have hlen : ∀ (y x : Int) (cs : List Int), (placeRunes rw y x cs).length = cs.length := by
    intro y x cs
    induction cs generalizing x with
    | nil => rfl
    | cons c cs ih =>
      unfold placeRunes
      split <;> simp [ih]
  refine ⟨h.1, h.2.1, ?_, ?_⟩
  · unfold drawLine
    rw [h.1, List.length_append, hlen]
  · intro c
    by_cases hz : rw c = 0
    · simp [drawRune, hz]
    · have hz2 : ¬ ((rw c : Int) = 0) := by omega
      simp [drawRune, hz, hz2]

/-! ## Explicit line breaks -/

theorem encodeRune_one (n : Nat) (h : n < 0x80) : encodeRune (n : Int) = [n] :=
  encodeRune_ascii n h

theorem encodeRune_two (n : Nat) (h1 : 0x80 ≤ n) (h2 : n < 0x800) :
    encodeRune (n : Int) = [0xC0 + n / 64, 0x80 + n % 64] := by
  have a1 : ¬ ((n : Int) < 0) := by omega
  have a2 : ¬ (n < 0x80) := by omega
  simp only [encodeRune, Int.toNat_ofNat, a1, a2, h2, if_true, if_false]

theorem encodeRune_three (n : Nat) (h1 : 0x800 ≤ n) (h2 : n < 0x10000)
    (h3 : ¬ (0xD800 ≤ n ∧ n ≤ 0xDFFF)) :
    encodeRune (n : Int) = [0xE0 + n / 4096, 0x80 + n / 64 % 64, 0x80 + n % 64] := by
  have a1 : ¬ ((n : Int) < 0) := by omega
  have a2 : ¬ (n < 0x80) := by omega
  have a3 : ¬ (n < 0x800) := by omega
  simp only [encodeRune, Int.toNat_ofNat, a1, a2, a3, h2, h3, if_true, if_false]

theorem encodeRune_four (n : Nat) (h1 : 0x10000 ≤ n) (h2 : n ≤ 0x10FFFF) :
    encodeRune (n : Int) =
      [0xF0 + n / 262144, 0x80 + n / 4096 % 64, 0x80 + n / 64 % 64, 0x80 + n % 64] := by
  have a1 : ¬ ((n : Int) < 0) := by omega
  have a2 : ¬ (n < 0x80) := by omega
  have a3 : ¬ (n < 0x800) := by omega
  have a4 : ¬ (0xD800 ≤ n ∧ n ≤ 0xDFFF) := by omega
  have a5 : ¬ (n < 0x10000) := by omega
  simp only [encodeRune, Int.toNat_ofNat, a1, a2, a3, a4, a5, h2, if_true, if_false]

theorem decode_two (a b : Nat) (t : GoString) (ha1 : 0xC2 ≤ a) (ha2 : a < 0xE0)
    (hb1 : 0x80 ≤ b) (hb2 : b ≤ 0xBF) :
    DecodeRuneInString (a :: b :: t) = ((((a % 32) * 64 + b % 64 : Nat) : Int), 2) := by
  have a1 : ¬ (a < 0x80) := by omega
  have a2 : ¬ (a < 0xC2) := by omega
  simp [DecodeRuneInString, isCont, a1, a2, ha2, hb1, hb2]

theorem decode_three (a b c : Nat) (t : GoString) (ha1 : 0xE0 ≤ a) (ha2 : a < 0xF0)
    (hb1 : (if a = 0xE0 then 0xA0 else 0x80) ≤ b) (hb2 : b ≤ (if a = 0xED then 0x9F else 0xBF))
    (hc1 : 0x80 ≤ c) (hc2 : c ≤ 0xBF) :
    DecodeRuneInString (a :: b :: c :: t) =
      ((((a % 16) * 4096 + (b % 64) * 64 + c % 64 : Nat) : Int), 3) := by
  have a1 : ¬ (a < 0x80) := by omega
  have a2 : ¬ (a < 0xC2) := by omega
  have a3 : ¬ (a < 0xE0) := by omega
  simp [DecodeRuneInString, isCont, a1, a2, a3, ha2, hb1, hb2, hc1, hc2]

theorem decode_four (a b c d : Nat) (t : GoString) (ha1 : 0xF0 ≤ a) (ha2 : a < 0xF5)
    (hb1 : (if a = 0xF0 then 0x90 else 0x80) ≤ b) (hb2 : b ≤ (if a = 0xF4 then 0x8F else 0xBF))
    (hc1 : 0x80 ≤ c) (hc2 : c ≤ 0xBF) (hd1 : 0x80 ≤ d) (hd2 : d ≤ 0xBF) :
    DecodeRuneInString (a :: b :: c :: d :: t) =
      ((((a % 8) * 262144 + (b % 64) * 4096 + (c % 64) * 64 + d % 64 : Nat) : Int), 4) := by
  have a1 : ¬ (a < 0x80) := by omega
  have a2 : ¬ (a < 0xC2) := by omega
  have a3 : ¬ (a < 0xE0) := by omega
  have a4 : ¬ (a < 0xF0) := by omega
  simp [DecodeRuneInString, isCont, a1, a2, a3, a4, ha2, hb1, hb2, hc1, hc2, hd1, hd2]

/-- Decoding the encoding of a Unicode scalar value gives the value back, with the
width of the encoding, whatever follows. -/
theorem decode_encodeRune (r : Int) (t : GoString) (hr : isScalar r) :
    DecodeRuneInString (encodeRune r ++ t) = (r, (encodeRune r).length) := by
  obtain ⟨h0, h1, h2⟩ := hr
  obtain ⟨n, rfl⟩ := Int.eq_ofNat_of_zero_le h0
  have hn1 : n ≤ 0x10FFFF := by omega
  have hn2 : ¬ (0xD800 ≤ n ∧ n ≤ 0xDFFF) := by omega
  by_cases c1 : n < 0x80
  · rw [encodeRune_one n c1]
    exact DecodeRuneInString_ascii n t c1
  · by_cases c2 : n < 0x800
    · rw [encodeRune_two n (by omega) c2]
      simp only [List.cons_append, List.nil_append, List.length_cons, List.length_nil]
      rw [decode_two _ _ _ (by omega) (by omega) (by omega) (by omega)]
      congr 1
      congr 1
      omega
    · by_cases c3 : n < 0x10000
      · rw [encodeRune_three n (by omega) c3 hn2]
        simp only [List.cons_append, List.nil_append, List.length_cons, List.length_nil]
        rw [decode_three _ _ _ _ (by omega) (by omega) (by split <;> omega)
          (by split <;> omega) (by omega) (by omega)]
        congr 1
        congr 1
        omega
      · rw [encodeRune_four n (by omega) hn1]
        simp only [List.cons_append, List.nil_append, List.length_cons, List.length_nil]
        rw [decode_four _ _ _ _ _ (by omega) (by omega) (by split <;> omega)
          (by split <;> omega) (by omega) (by omega) (by omega) (by omega)]
        congr 1
        congr 1
        omega

/-- The encoding of an ASCII rune is the rune as one byte; every byte of any other
encoding is 128 or more. -/
theorem encodeRune_bytes (r : Int) :
    (0 ≤ r ∧ r < 128 ∧ encodeRune r = [r.toNat]) ∨ ((r < 0 ∨ 128 ≤ r) ∧ ∀ b ∈ encodeRune r, 128 ≤ b) := by
  unfold encodeRune
  simp only
  split_ifs with h1 h2 h3 h4 h5 h6
  · right
    refine ⟨by omega, ?_⟩
    intro b hb
    simp only [List.mem_cons, List.mem_singleton, List.not_mem_nil, or_false] at hb
    omega
  · left
    exact ⟨by omega, by omega, rfl⟩
  all_goals
    right
    refine ⟨by omega, ?_⟩
    intro b hb
    simp only [List.mem_cons, List.mem_singleton, List.not_mem_nil, or_false] at hb
    omega

theorem rangeRunes_encodeRunes (rs : List Int) (fuel : Nat) (hrs : ∀ r ∈ rs, isScalar r)
    (hf : (encodeRunes rs).length ≤ fuel) : rangeRunes fuel (encodeRunes rs) = rs := by
  induction rs generalizing fuel with
  | nil => cases fuel <;> rfl
  | cons r rs ih =>
    have hr := hrs r (List.mem_cons_self _ _)
    have hlen := encodeRune_length_pos r
    have hdec := decode_encodeRune r (encodeRunes rs) hr
    simp only [encodeRunes, List.length_append] at hf
    cases fuel with
    | zero => omega
    | succ fuel =>
      cases he : encodeRune r ++ encodeRunes rs with
      | nil =>
        have := congrArg List.length he
        simp only [List.length_append, List.length_nil] at this
        omega
      | cons b t =>
        simp only [encodeRunes, he, rangeRunes]
        rw [← he, hdec]
        simp only [List.drop_left]
        rw [ih fuel (fun x hx => hrs x (List.mem_cons_of_mem _ hx)) (by omega)]

/-- The loop `range` over the encoding of Unicode scalar values yields them. -/
theorem runes_encodeRunes (rs : List Int) (hrs : ∀ r ∈ rs, isScalar r) :
    runes (encodeRunes rs) = rs :=
  rangeRunes_encodeRunes rs _ hrs (le_refl _)

theorem removeCR_encodeRune (r : Int) :
    removeCR (encodeRune r) = if r = 13 then [] else encodeRune r := by
  rcases encodeRune_bytes r with ⟨h0, h1, h2⟩ | ⟨h0, h1⟩
  · rw [h2]
    by_cases h13 : r = 13
    · subst h13
      rfl
    · have : r.toNat ≠ 13 := by omega
      simp [removeCR, h13, this]
  · have h13 : r ≠ 13 := by omega
    rw [if_neg h13]
    unfold removeCR
    rw [List.filter_eq_self]
    intro b hb
    have := h1 b hb
    simp only [decide_eq_true_eq]
    omega

theorem removeCR_encodeRunes (rs : List Int) :
    removeCR (encodeRunes rs) = encodeRunes (rs.filter (fun r => decide (r ≠ 13))) := by
  induction rs with
  | nil => rfl
  | cons r rs ih =>
    have h1 : removeCR (encodeRune r ++ encodeRunes rs) =
        removeCR (encodeRune r) ++ removeCR (encodeRunes rs) := by
      simp [removeCR]
    simp only [encodeRunes]
    rw [h1, ih, removeCR_encodeRune]
    by_cases h13 : r = 13
    · simp [h13]
    · simp [h13, encodeRunes]

theorem splitSep_append_free (e rest : GoString) (he : ∀ b ∈ e, b ≠ 10) :
    splitSep 10 (e ++ rest) = (e ++ (splitSep 10 rest).1, (splitSep 10 rest).2) := by
  induction e with
  | nil => rfl
  | cons b e ih =>
    have hb : b ≠ 10 := he b (List.mem_cons_self _ _)
    have hstep : splitSep 10 (b :: (e ++ rest)) =
        (b :: (splitSep 10 (e ++ rest)).1, (splitSep 10 (e ++ rest)).2) := by
      simp only [splitSep, hb, if_false]
    rw [List.cons_append, hstep, ih (fun c hc => he c (List.mem_cons_of_mem _ hc))]
    rfl

theorem splitSep_encodeRunes (rs : List Int) :
    splitSep 10 (encodeRunes rs) =
      (encodeRunes (splitSep 10 rs).1, (splitSep 10 rs).2.map encodeRunes) := by
  induction rs with
  | nil => rfl
  | cons r rs ih =>
    by_cases h10 : r = 10
    · subst h10
      have he : encodeRunes (10 :: rs) = 10 :: encodeRunes rs := rfl
      have hstep : splitSep 10 ((10 : Nat) :: encodeRunes rs) =
          ([], (splitSep 10 (encodeRunes rs)).1 :: (splitSep 10 (encodeRunes rs)).2) := by
        simp only [splitSep, if_true]
      have hstep2 : splitSep 10 ((10 : Int) :: rs) =
          ([], (splitSep 10 rs).1 :: (splitSep 10 rs).2) := by
        simp only [splitSep, if_true]
      rw [he, hstep, hstep2, ih]
      rfl
    · have hfree : ∀ b ∈ encodeRune r, b ≠ 10 := by
        intro b hb
        rcases encodeRune_bytes r with ⟨h0, h1, h2⟩ | ⟨h0, h1⟩
        · rw [h2] at hb
          simp only [List.mem_singleton] at hb
          omega
        · have := h1 b hb
          omega
      have hstep2 : splitSep 10 (r :: rs) = (r :: (splitSep 10 rs).1, (splitSep 10 rs).2) := by
        simp only [splitSep, h10, if_false]
      show splitSep 10 (encodeRune r ++ encodeRunes rs) = _
      rw [splitSep_append_free _ _ hfree, ih, hstep2]
      rfl

theorem splitSep_mem (rs : List Int) :
    (∀ r ∈ (splitSep 10 rs).1, r ∈ rs) ∧ ∀ seg ∈ (splitSep 10 rs).2, ∀ r ∈ seg, r ∈ rs := by
  induction rs with
  | nil => exact ⟨fun r hr => (by cases hr), fun seg hseg => (by cases hseg)⟩
  | cons a rs ih =>
    obtain ⟨ih1, ih2⟩ := ih
    by_cases h10 : a = 10
    · simp only [splitSep, h10, if_true]
      refine ⟨fun r hr => (by cases hr), ?_⟩
      intro seg hseg r hr
      rcases List.mem_cons.mp hseg with hs | hs
      · subst hs
        exact List.mem_cons_of_mem _ (ih1 r hr)
      · exact List.mem_cons_of_mem _ (ih2 seg hs r hr)
    · simp only [splitSep, h10, if_false]
      refine ⟨?_, ?_⟩
      · intro r hr
        rcases List.mem_cons.mp hr with hr | hr
        · rw [hr]
          exact List.mem_cons_self _ _
        · exact List.mem_cons_of_mem _ (ih1 r hr)
      · intro seg hseg r hr
        exact List.mem_cons_of_mem _ (ih2 seg hseg r hr)

/-- The loop of `flowProcessor` over runes whose lines all fit in the width: the
line breaks end the lines, carriage returns are skipped, and nothing else is cut. -/
theorem foldl_flowStep_lines (w : Int) (rs : List Int) (st : FlowState)
    (hfirst : ((st.col + (splitSep 10 (rs.filter (fun r => decide (r ≠ 13)))).1.length : Nat) : Int)
      ≤ w)
    (hrest : ∀ seg ∈ (splitSep 10 (rs.filter (fun r => decide (r ≠ 13)))).2,
      (seg.length : Int) ≤ w) :
    (rs.foldl (flowStep w) st).out ++ [(rs.foldl (flowStep w) st).buf] =
      st.out ++ (st.buf ++ encodeRunes (splitSep 10 (rs.filter (fun r => decide (r ≠ 13)))).1) ::
        (splitSep 10 (rs.filter (fun r => decide (r ≠ 13)))).2.map encodeRunes := by
  induction rs generalizing st with
  | nil => simp [splitSep, encodeRunes]
  | cons r rs ih =>
    by_cases h13 : r = 13
    · subst h13
      have hstep : flowStep w st 13 = st := by simp [flowStep]
      have hfil : List.filter (fun r => decide (r ≠ 13)) ((13 : Int) :: rs) =
          List.filter (fun r => decide (r ≠ 13)) rs := by simp
      rw [hfil] at hfirst hrest ⊢
      simp only [List.foldl_cons, hstep]
      exact ih st hfirst hrest
    · have hfil : List.filter (fun r => decide (r ≠ 13)) (r :: rs) =
          r :: List.filter (fun r => decide (r ≠ 13)) rs := by simp [h13]
      rw [hfil] at hfirst hrest ⊢
      by_cases h10 : r = 10
      · subst h10
        simp only [splitSep, if_true, List.length_nil, List.mem_cons] at hfirst hrest
        simp only [List.foldl_cons, flowStep_newline, splitSep, if_true]
        rw [ih ⟨[], 0, 0, st.out ++ [st.buf]⟩
          (by
            have := hrest _ (Or.inl rfl)
            simpa using this)
          (fun seg hseg => hrest seg (Or.inr hseg))]
        simp [encodeRunes]
      · simp only [splitSep, h10, if_false, List.length_cons] at hfirst hrest
        have hne : ¬ ((st.col : Int) = w) := by omega
        have hstep : flowStep w st r =
            ⟨st.buf ++ encodeRune r, st.col + 1,
              if IsSpace r = true then st.col else st.lastSpace, st.out⟩ := by
          simp only [flowStep, h13, h10, hne, if_false]
        simp only [List.foldl_cons, hstep, splitSep, h10, if_false]
        rw [ih _ (by
          show (((st.col + 1) + (splitSep 10
            (List.filter (fun r => decide (r ≠ 13)) rs)).1.length : Nat) : Int) ≤ w
          have e : st.col + 1 + (splitSep 10 (List.filter (fun r => decide (r ≠ 13)) rs)).1.length
              = st.col + ((splitSep 10 (List.filter (fun r => decide (r ≠ 13)) rs)).1.length + 1) := by
            omega
          rw [e]
          exact hfirst) hrest]
        simp [encodeRunes, List.append_assoc]

/-- C13 as stated fails for a string that is not valid UTF-8: the string of the
single byte 0xFF has one segment of one character, and at width 1 `flow` gives the
line "�" (the bytes EF BF BD), not the segment: `range` decodes the byte as
U+FFFD and `WriteRune` writes that rune. -/
theorem flow_replaces_invalid_byte :
    SplitLines (removeCR [0xFF]) = [[0xFF]] ∧
    (∀ seg ∈ SplitLines (removeCR [0xFF]), ((runes seg).length : Int) ≤ 1) ∧
    flow [0xFF] 1 = [[0xEF, 0xBF, 0xBD]] ∧
    flow [0xFF] 1 ≠ SplitLines (removeCR [0xFF]) := by
  decide

/-- C13 (amended): for every valid UTF-8 string `s` (the encoding of a sequence of
Unicode scalar values) and every width of at least 1 such that every segment of
`s` between line feeds, with the carriage returns deleted, has at most `w`
characters, `flow(s, w)` is exactly the list of those segments in order,
untrimmed, with a last empty line when `s` ends with a line feed. -/
theorem explicit_breaks_verbatim (rs : List Int) (w : Int) (hrs : ∀ r ∈ rs, isScalar r)
    (hw : 1 ≤ w)
    (hseg : ∀ seg ∈ SplitLines (removeCR (encodeRunes rs)), ((runes seg).length : Int) ≤ w) :
    flow (encodeRunes rs) w = SplitLines (removeCR (encodeRunes rs)) := by
  have hsplit : SplitLines (removeCR (encodeRunes rs)) =
      encodeRunes (splitSep 10 (rs.filter (fun r => decide (r ≠ 13)))).1 ::
        (splitSep 10 (rs.filter (fun r => decide (r ≠ 13)))).2.map encodeRunes := by
    unfold SplitLines
    rw [removeCR_encodeRunes, splitSep_encodeRunes]
  have hsub : ∀ r ∈ rs.filter (fun r => decide (r ≠ 13)), isScalar r :=
    fun r hr => hrs r (List.mem_of_mem_filter hr)
  obtain ⟨hm1, hm2⟩ := splitSep_mem (rs.filter (fun r => decide (r ≠ 13)))
  rw [hsplit] at hseg
  have hfirst : (((splitSep 10 (rs.filter (fun r => decide (r ≠ 13)))).1.length : Nat) : Int)
      ≤ w := by
    have := hseg _ (List.mem_cons_self _ _)
    rwa [runes_encodeRunes _ (fun r hr => hsub r (hm1 r hr))] at this
  have hrest : ∀ seg ∈ (splitSep 10 (rs.filter (fun r => decide (r ≠ 13)))).2,
      (seg.length : Int) ≤ w := by
    intro seg hs
    have := hseg (encodeRunes seg) (List.mem_cons_of_mem _ (List.mem_map_of_mem _ hs))
    rwa [runes_encodeRunes _ (fun r hr => hsub r (hm2 seg hs r hr))] at this
  have hmain := foldl_flowStep_lines w rs FlowState.init
    (by simpa [FlowState.init] using hfirst) hrest
  rw [flow_eq, runes_encodeRunes rs hrs, hmain, hsplit]
  simp [FlowState.init]

/-- Witness of C13 (amended): the text "é1\r\n世\n" at width 2, whose segments are
"é1", "世" and the empty line. -/
theorem explicit_breaks_verbatim_witness :
    flow (encodeRunes [0xE9, 0x31, 13, 10, 0x4E16, 10]) 2 =
      [[0xC3, 0xA9, 0x31], [0xE4, 0xB8, 0x96], []] :=
  (explicit_breaks_verbatim [0xE9, 0x31, 13, 10, 0x4E16, 10] 2
    (by
      intro r hr
      simp only [List.mem_cons, List.mem_singleton, List.not_mem_nil, or_false] at hr
      unfold isScalar
      omega)
    (by decide) (by decide)).trans (by decide)

end Urlscan
